import Mathlib

/-!
Verification development for the aegistry screening pipeline.

The Rust sources under `crates/` are shallowly embedded below:

* Rust `f32`/`f64` arithmetic is modelled by exact fractions (`Frac`: an
  integer numerator over a natural denominator, compared by
  cross-multiplication).  All score computations in the pipeline are short
  chains of additions and multiplications of small constants, far away from
  the decision thresholds they are compared against, so exact rational
  arithmetic is a faithful model of the float computations.
* Rust `String`/`&str` values are modelled as `List Char`; where byte-level
  behaviour matters (`str::len`, byte slicing, hashing) an explicit UTF-8
  encoder is used.
* The Unicode operations of the `unicode_normalization` crate and
  `char::to_lowercase` are modelled by explicit tables covering the Latin-1
  Supplement block, selected Latin Extended-A code points and U+0130; all
  other characters are modelled as inert (mapped to themselves), matching
  the accent-folding scope of the system.
* `DefaultHasher` of the Rust standard library is SipHash-1-3 with zero
  keys; it is implemented bit-faithfully on `Nat` modulo `2 ^ 64`.
-/

set_option maxRecDepth 100000

namespace Aegistry

/-- Exact fraction used to model the floating-point score arithmetic of the
matching engine.  The denominator is kept positive by construction in every
operation used by the embedding. -/
structure Frac where
  num : Int
  den : Nat
deriving DecidableEq

/-- Rational value of a fraction. -/
def Frac.val (x : Frac) : ℚ := (x.num : ℚ) / (x.den : ℚ)

/-- A fraction is well formed when its denominator is positive. -/
def Frac.Pos (x : Frac) : Prop := 0 < x.den

/-- Fraction `n / d` of two naturals. -/
def natFrac (n d : Nat) : Frac := ⟨n, d⟩

/-- Addition of fractions by cross multiplication. -/
def Frac.add (a b : Frac) : Frac := ⟨a.num * b.den + b.num * a.den, a.den * b.den⟩

/-- Subtraction of fractions by cross multiplication. -/
def Frac.sub (a b : Frac) : Frac := ⟨a.num * b.den - b.num * a.den, a.den * b.den⟩

/-- Multiplication of fractions. -/
def Frac.mul (a b : Frac) : Frac := ⟨a.num * b.num, a.den * b.den⟩

/-- Division of a fraction by a natural number. -/
def Frac.divNat (a : Frac) (n : Nat) : Frac := ⟨a.num, a.den * n⟩

/-- Boolean `≤` on fractions via cross multiplication (valid for positive
denominators). -/
def Frac.ble (a b : Frac) : Bool := a.num * (b.den : Int) ≤ b.num * (a.den : Int)

/-- Boolean `<` on fractions via cross multiplication (valid for positive
denominators). -/
def Frac.blt (a b : Frac) : Bool := a.num * (b.den : Int) < b.num * (a.den : Int)

/-- Model of `f32::max` on real (non-NaN) values. -/
def Frac.fmax (a b : Frac) : Frac := if Frac.ble a b then b else a

/-- Model of `f32::min` on real (non-NaN) values. -/
def Frac.fmin (a b : Frac) : Frac := if Frac.ble a b then a else b

theorem Frac.val_natFrac (n d : Nat) : (natFrac n d).val = (n : ℚ) / d := rfl

theorem Frac.pos_natFrac {n d : Nat} (hd : 0 < d) : (natFrac n d).Pos := hd

theorem Frac.pos_add {a b : Frac} (ha : a.Pos) (hb : b.Pos) : (a.add b).Pos :=
  Nat.mul_pos ha hb

theorem Frac.pos_sub {a b : Frac} (ha : a.Pos) (hb : b.Pos) : (a.sub b).Pos :=
  Nat.mul_pos ha hb

theorem Frac.pos_mul {a b : Frac} (ha : a.Pos) (hb : b.Pos) : (a.mul b).Pos :=
  Nat.mul_pos ha hb

theorem Frac.pos_divNat {a : Frac} {n : Nat} (ha : a.Pos) (hn : 0 < n) :
    (a.divNat n).Pos := Nat.mul_pos ha hn

theorem Frac.pos_fmax {a b : Frac} (ha : a.Pos) (hb : b.Pos) : (a.fmax b).Pos := by
  unfold Frac.fmax; split <;> assumption

theorem Frac.pos_fmin {a b : Frac} (ha : a.Pos) (hb : b.Pos) : (a.fmin b).Pos := by
  unfold Frac.fmin; split <;> assumption

theorem Frac.den_ne_zero {a : Frac} (ha : a.Pos) : ((a.den : ℚ)) ≠ 0 := by
  exact_mod_cast Nat.pos_iff_ne_zero.mp ha

theorem Frac.val_add {a b : Frac} (ha : a.Pos) (hb : b.Pos) :
    (a.add b).val = a.val + b.val := by
  unfold Frac.val Frac.add
  have h1 := Frac.den_ne_zero ha
  have h2 := Frac.den_ne_zero hb
  push_cast
  field_simp

theorem Frac.val_sub {a b : Frac} (ha : a.Pos) (hb : b.Pos) :
    (a.sub b).val = a.val - b.val := by
  unfold Frac.val Frac.sub
  have h1 := Frac.den_ne_zero ha
  have h2 := Frac.den_ne_zero hb
  push_cast
  field_simp
  ring

theorem Frac.val_mul {a b : Frac} (ha : a.Pos) (hb : b.Pos) :
    (a.mul b).val = a.val * b.val := by
  unfold Frac.val Frac.mul
  have h1 := Frac.den_ne_zero ha
  have h2 := Frac.den_ne_zero hb
  push_cast
  field_simp

theorem Frac.val_divNat {a : Frac} {n : Nat} (ha : a.Pos) (hn : 0 < n) :
    (a.divNat n).val = a.val / n := by
  unfold Frac.val Frac.divNat
  have h1 := Frac.den_ne_zero ha
  have h2 : ((n : ℚ)) ≠ 0 := by exact_mod_cast Nat.pos_iff_ne_zero.mp hn
  push_cast
  field_simp

theorem Frac.ble_iff {a b : Frac} (ha : a.Pos) (hb : b.Pos) :
    a.ble b = true ↔ a.val ≤ b.val := by
  unfold Frac.ble Frac.val
  have h1 : (0 : ℚ) < (a.den : ℚ) := by exact_mod_cast ha
  have h2 : (0 : ℚ) < (b.den : ℚ) := by exact_mod_cast hb
  rw [div_le_div_iff₀ h1 h2, decide_eq_true_iff]
  constructor
  · intro h; exact_mod_cast h
  · intro h; exact_mod_cast h

theorem Frac.blt_iff {a b : Frac} (ha : a.Pos) (hb : b.Pos) :
    a.blt b = true ↔ a.val < b.val := by
  unfold Frac.blt Frac.val
  have h1 : (0 : ℚ) < (a.den : ℚ) := by exact_mod_cast ha
  have h2 : (0 : ℚ) < (b.den : ℚ) := by exact_mod_cast hb
  rw [div_lt_div_iff₀ h1 h2, decide_eq_true_iff]
  constructor
  · intro h; exact_mod_cast h
  · intro h; exact_mod_cast h

theorem Frac.val_fmax {a b : Frac} (ha : a.Pos) (hb : b.Pos) :
    (a.fmax b).val = max a.val b.val := by
  unfold Frac.fmax
  rcases h : a.ble b with _ | _
  · have : ¬ a.val ≤ b.val := by
      rw [← Frac.ble_iff ha hb]; simp [h]
    simp [max_eq_left (le_of_not_le this)]
  · have : a.val ≤ b.val := (Frac.ble_iff ha hb).mp h
    simp [max_eq_right this]

theorem Frac.val_fmin {a b : Frac} (ha : a.Pos) (hb : b.Pos) :
    (a.fmin b).val = min a.val b.val := by
  unfold Frac.fmin
  rcases h : a.ble b with _ | _
  · have : ¬ a.val ≤ b.val := by
      rw [← Frac.ble_iff ha hb]; simp [h]
    simp [min_eq_right (le_of_not_le this)]
  · have : a.val ≤ b.val := (Frac.ble_iff ha hb).mp h
    simp [min_eq_left this]

/-! String model: Rust `String`/`&str` values are `List Char`. -/

/-- Model of Rust strings as character lists. -/
abbrev Str := List Char

/-- Model of `char::is_whitespace` (the Unicode `White_Space` property). -/
def isWs (c : Char) : Bool :=
  let n := c.toNat
  n = 0x20 ∨ (0x09 ≤ n ∧ n ≤ 0x0D) ∨ n = 0x85 ∨ n = 0xA0 ∨ n = 0x1680 ∨
    (0x2000 ≤ n ∧ n ≤ 0x200A) ∨ n = 0x2028 ∨ n = 0x2029 ∨ n = 0x202F ∨
    n = 0x205F ∨ n = 0x3000

/-- Accumulator pass for `words`: `acc` holds the current word reversed. -/
def wordsAux : Str → Str → List Str
  | [], acc => if acc.isEmpty then [] else [acc.reverse]
  | c :: cs, acc =>
    if isWs c then
      if acc.isEmpty then wordsAux cs [] else acc.reverse :: wordsAux cs []
    else wordsAux cs (c :: acc)

/-- Model of `str::split_whitespace`: the maximal whitespace-free words of a
string, in order. -/
def words (s : Str) : List Str := wordsAux s []

/-- Model of `Vec::join(" ")`: interleave the words with single spaces. -/
def unwords : List Str → Str
  | [] => []
  | [w] => w
  | w :: ws => w ++ ' ' :: unwords ws

/-- Whitespace collapsing: `split_whitespace` followed by `join(" ")`, the
final step of name normalization. -/
def collapse (s : Str) : Str := unwords (words s)

/-! Unicode model.  The embedding models `unicode_normalization::nfd()` and
`str::to_lowercase` by explicit tables over the Latin-1 Supplement block plus
selected Latin Extended-A code points (U+0100/0101, U+0106/0107, U+010C/010D,
U+0130, U+0160/0161, U+0178, U+017D/017E); every other character is modelled
as inert.  This covers the accent-folding fragment the system is specified
for. -/

/-- Canonical (NFD) decomposition table for the modelled fragment. -/
def nfdTable : List (Char × List Char) :=
  [ ('À', ['A', '̀']), ('Á', ['A', '́']), ('Â', ['A', '̂']),
    ('Ã', ['A', '̃']), ('Ä', ['A', '̈']), ('Å', ['A', '̊']),
    ('Ç', ['C', '̧']), ('È', ['E', '̀']), ('É', ['E', '́']),
    ('Ê', ['E', '̂']), ('Ë', ['E', '̈']), ('Ì', ['I', '̀']),
    ('Í', ['I', '́']), ('Î', ['I', '̂']), ('Ï', ['I', '̈']),
    ('Ñ', ['N', '̃']), ('Ò', ['O', '̀']), ('Ó', ['O', '́']),
    ('Ô', ['O', '̂']), ('Õ', ['O', '̃']), ('Ö', ['O', '̈']),
    ('Ù', ['U', '̀']), ('Ú', ['U', '́']), ('Û', ['U', '̂']),
    ('Ü', ['U', '̈']), ('Ý', ['Y', '́']),
    ('à', ['a', '̀']), ('á', ['a', '́']), ('â', ['a', '̂']),
    ('ã', ['a', '̃']), ('ä', ['a', '̈']), ('å', ['a', '̊']),
    ('ç', ['c', '̧']), ('è', ['e', '̀']), ('é', ['e', '́']),
    ('ê', ['e', '̂']), ('ë', ['e', '̈']), ('ì', ['i', '̀']),
    ('í', ['i', '́']), ('î', ['i', '̂']), ('ï', ['i', '̈']),
    ('ñ', ['n', '̃']), ('ò', ['o', '̀']), ('ó', ['o', '́']),
    ('ô', ['o', '̂']), ('õ', ['o', '̃']), ('ö', ['o', '̈']),
    ('ù', ['u', '̀']), ('ú', ['u', '́']), ('û', ['u', '̂']),
    ('ü', ['u', '̈']), ('ý', ['y', '́']), ('ÿ', ['y', '̈']),
    ('Ā', ['A', '̄']), ('ā', ['a', '̄']),
    ('Ć', ['C', '́']), ('ć', ['c', '́']),
    ('Č', ['C', '̌']), ('č', ['c', '̌']),
    ('İ', ['I', '̇']),
    ('Š', ['S', '̌']), ('š', ['s', '̌']),
    ('Ÿ', ['Y', '̈']),
    ('Ž', ['Z', '̌']), ('ž', ['z', '̌']) ]

/-- Lowercase mapping table for the modelled fragment (`str::to_lowercase`;
U+0130 is the one unconditional full case mapping, expanding to two code
points). -/
def lowerTable : List (Char × List Char) :=
  (List.range 26).map (fun i => (Char.ofNat (0x41 + i), [Char.ofNat (0x61 + i)])) ++
    ((List.range 23).map (fun i => (Char.ofNat (0xC0 + i), [Char.ofNat (0xE0 + i)]))) ++
    ((List.range 6).map (fun i => (Char.ofNat (0xD8 + i), [Char.ofNat (0xF8 + i)]))) ++
    [ ('Ā', ['ā']), ('Ć', ['ć']), ('Č', ['č']),
      ('İ', ['i', '̇']),
      ('Š', ['š']), ('Ÿ', ['ÿ']), ('Ž', ['ž']) ]

/-- NFD decomposition of one character in the modelled fragment. -/
def nfdChar (c : Char) : List Char :=
  match nfdTable.lookup c with
  | some ds => ds
  | none => [c]

/-- Lowercase expansion of one character in the modelled fragment. -/
def lowerChar (c : Char) : List Char :=
  match lowerTable.lookup c with
  | some ds => ds
  | none => [c]

/-- The combining marks stripped by normalization: U+0300..U+036F. -/
def isStripMark (c : Char) : Bool := 0x300 ≤ c.toNat ∧ c.toNat ≤ 0x36F

/-- NFD decomposition of a string. -/
def nfdStr (s : Str) : Str := s.flatMap nfdChar

/-- Strip the combining marks U+0300..U+036F. -/
def stripStr (s : Str) : Str := s.filter (fun c => !(isStripMark c))

/-- Lowercasing of a string. -/
def lowerStr (s : Str) : Str := s.flatMap lowerChar

/-- Embedding of `normalize_name` (matching-core `lib.rs`) and of the
identical `normalize_for_index` (ingest `indexer.rs`): NFD decomposition,
strip combining marks U+0300..U+036F, lowercase, collapse whitespace. -/
def normalizeName (s : Str) : Str := collapse (lowerStr (stripStr (nfdStr s)))

/-! Jaro-Winkler similarity, embedded from the `strsim` crate as used by
matching-core: `generic_jaro` (match window `max/2 - 1` saturating, greedy
left-to-right matching, transpositions halved) followed by the Winkler boost
`jaro + 0.1 · prefix · (1 - jaro)` with an uncapped common prefix, clamped
at 1. -/

/-- First admissible match position for one input character: the least
`j < maxB` with `minB ≤ j`, an equal character, and an unset flag. -/
def jaroFindMatch (aElem : Char) (b : Str) (bflags : List Bool) (minB maxB : Nat) :
    Option Nat :=
  (List.range maxB).find? (fun j =>
    decide (minB ≤ j) && (b[j]? == some aElem) && (bflags[j]? == some false))

/-- State of the Jaro matching pass: flags over `b`, the matched characters
of `a` in order, and the match count. -/
structure JaroState where
  bflags : List Bool
  matchedA : Str
  matchCount : Nat
deriving DecidableEq

/-- One step of the Jaro matching pass for the `i`-th character of `a`. -/
def jaroStep (b : Str) (sr : Nat) (st : JaroState) (ix : Nat × Char) : JaroState :=
  let i := ix.1
  let aElem := ix.2
  let minB := if i > sr then i - sr else 0
  let maxB := min b.length (i + sr + 1)
  match jaroFindMatch aElem b st.bflags minB maxB with
  | some j => ⟨st.bflags.set j true, st.matchedA ++ [aElem], st.matchCount + 1⟩
  | none => st

/-- The matching pass of `generic_jaro` over all characters of `a`. -/
def jaroMatch (a b : Str) (sr : Nat) : JaroState :=
  a.enum.foldl (jaroStep b sr) ⟨List.replicate b.length false, [], 0⟩

/-- Matched characters of `b`, in `b`-order, read off the flags. -/
def matchedB (b : Str) (bflags : List Bool) : Str :=
  (b.zip bflags).filterMap (fun p => if p.2 then some p.1 else none)

/-- Embedding of `strsim::generic_jaro`. -/
def jaroQ (a b : Str) : Frac :=
  let la := a.length
  let lb := b.length
  if la = 0 ∧ lb = 0 then natFrac 1 1
  else if la = 0 ∨ lb = 0 then natFrac 0 1
  else
    let sr := Nat.max la lb / 2 - 1
    let st := jaroMatch a b sr
    let m := st.matchCount
    if m = 0 then natFrac 0 1
    else
      let t := ((st.matchedA.zip (matchedB b st.bflags)).countP (fun p => p.1 ≠ p.2)) / 2
      Frac.mul (natFrac 1 3)
        (Frac.add (Frac.add (natFrac m la) (natFrac m lb)) (natFrac (m - t) m))

/-- Embedding of `strsim::jaro_winkler`: Jaro plus the (uncapped) common
prefix boost, clamped at 1. -/
def jaroWinklerQ (a b : Str) : Frac :=
  let jd := jaroQ a b
  let p := ((a.zip b).takeWhile (fun q => q.1 = q.2)).length
  let jwd := Frac.add jd (Frac.mul (natFrac p 10) (Frac.sub (natFrac 1 1) jd))
  Frac.fmin jwd (natFrac 1 1)

/-! Name-similarity scoring, embedded from `compute_parts_match_score` and
`compute_name_similarity` in matching-core `lib.rs`. -/

/-- State of the greedy token assignment: used flags over the subject
tokens, credited similarity total, matched-token count. -/
structure PartsState where
  used : List Bool
  total : Frac
  matched : Nat
deriving DecidableEq

/-- Best unused subject token for one input token: the maximal similarity
and the index of the first token attaining a strict improvement. -/
def findBest (x : Str) (sps : List Str) (used : List Bool) : Frac × Option Nat :=
  sps.enum.foldl (fun acc jsp =>
    if used.getD jsp.1 false then acc
    else
      let sim := jaroWinklerQ x jsp.2
      if Frac.blt acc.1 sim then (sim, some jsp.1) else acc)
    (natFrac 0 1, none)

/-- One step of the greedy assignment for one input token: full credit at
similarity at least 0.90, discounted (0.8×) credit at 0.80, else unmatched. -/
def partsStep (sps : List Str) (st : PartsState) (x : Str) : PartsState :=
  let bi := findBest x sps st.used
  let best := bi.1
  if Frac.ble (natFrac 9 10) best then
    let used := match bi.2 with
      | some j => st.used.set j true
      | none => st.used
    ⟨used, st.total.add best, st.matched + 1⟩
  else if Frac.ble (natFrac 8 10) best then
    let used := match bi.2 with
      | some j => st.used.set j true
      | none => st.used
    ⟨used, st.total.add (best.mul (natFrac 8 10)), st.matched + 1⟩
  else st

/-- Embedding of `compute_parts_match_score`. -/
def computePartsMatchScore (inputParts subjectParts : List Str) : Frac :=
  if inputParts.isEmpty ∨ subjectParts.isEmpty then natFrac 0 1
  else
    let st := inputParts.foldl (partsStep subjectParts)
      ⟨List.replicate subjectParts.length false, natFrac 0 1, 0⟩
    if st.matched < inputParts.length then
      let missing := inputParts.length - st.matched
      let penalty := Frac.mul (natFrac 1 4) (natFrac missing 1)
      let base := if st.matched > 0 then st.total.divNat st.matched else natFrac 0 1
      Frac.fmax (base.sub penalty) (natFrac 0 1)
    else st.total.divNat st.matched

/-- Substring test, modelling `str::contains`. -/
def strContains : Str → Str → Bool
  | [], needle => needle.isEmpty
  | hay@(_ :: t), needle => needle.isPrefixOf hay || strContains t needle

/-- Embedding of `compute_name_similarity`: parts-based score, containment
bonus, and blending with the full-string Jaro-Winkler. -/
def computeNameSimilarity (input : Str) (inputParts : List Str) (subject : Str) : Frac :=
  let subjectParts := words subject
  let partsScore := computePartsMatchScore inputParts subjectParts
  let containmentBonus := if strContains subject input then natFrac 5 100 else natFrac 0 1
  let fullJw := jaroWinklerQ input subject
  if Frac.ble (natFrac 9 10) partsScore then
    Frac.fmin (partsScore.add containmentBonus) (natFrac 1 1)
  else if Frac.ble (natFrac 7 10) partsScore then
    Frac.fmin (Frac.add (Frac.add (Frac.mul (natFrac 7 10) partsScore)
      (Frac.mul (natFrac 3 10) fullJw)) containmentBonus) (natFrac 1 1)
  else
    Frac.fmin (fullJw.mul (natFrac 85 100)) (natFrac 75 100)

/-! Scoring and risk, embedded from `search_and_score` (matching-core
`lib.rs`) and `perform_screening` (screening-api `main.rs`).  Candidate
retrieval happens in an external full-text index; the retrieved candidate
list is an input of the embedding.  The `source`/`kind` relabelling of
`parse_source`/`parse_kind` is orthogonal to every claim and is left out. -/

/-- ASCII lowercase of one character (`u8::to_ascii_lowercase`). -/
def asciiLower (c : Char) : Char :=
  if 'A' ≤ c ∧ c ≤ 'Z' then Char.ofNat (c.toNat + 32) else c

/-- Model of `str::eq_ignore_ascii_case`. -/
def eqIgnoreAsciiCase (a b : Str) : Bool :=
  a.map asciiLower == b.map asciiLower

/-- Candidate row materialized from the search index. -/
structure Candidate where
  subject_id : Str
  primary_name : Str
  country : Option Str
  dob_year : Option Int
deriving DecidableEq

/-- Component scores of one hit. -/
structure ScoreComponents where
  name_similarity : Frac
  dob_similarity : Frac
  country_match : Frac
deriving DecidableEq

/-- Country component: 1.0 exactly when a country was supplied, the
candidate has one, and they agree ASCII-case-insensitively. -/
def countryMatch (countryIn : Option Str) (countrySubj : Option Str) : Frac :=
  match countryIn, countrySubj with
  | some cIn, some cSubj => if eqIgnoreAsciiCase cIn cSubj then natFrac 1 1 else natFrac 0 1
  | _, _ => natFrac 0 1

/-- DOB component: 1.0 on equal years, 0.5 within two years, else 0.0. -/
def dobSimilarity (dobIn : Option Int) (dobSubj : Option Int) : Frac :=
  match dobIn, dobSubj with
  | some inp, some subj =>
    if inp = subj then natFrac 1 1
    else if (inp - subj).natAbs ≤ 2 then natFrac 1 2
    else natFrac 0 1
  | _, _ => natFrac 0 1

/-- Weighted combination and the three cap/floor rules of
`search_and_score`, applied in source order. -/
def scoreOne (countryIn : Option Str) (dobIn : Option Int)
    (ns cm ds : Frac) : Frac :=
  let score := Frac.add (Frac.add (Frac.mul (natFrac 7 10) ns)
    (Frac.mul (natFrac 2 10) cm)) (Frac.mul (natFrac 1 10) ds)
  let score := if Frac.ble (natFrac 99 100) ns ∧ Frac.ble (natFrac 1 1) cm then
      score.fmax (natFrac 95 100)
    else score
  let score := if countryIn.isSome ∧ Frac.blt cm (natFrac 1 1) ∧
      Frac.blt ns (natFrac 99 100) ∧ Frac.blt (natFrac 9 10) score then
      score.fmin (natFrac 89 100)
    else score
  let score := if dobIn.isSome ∧ Frac.blt ds (natFrac 1 1) ∧
      (Frac.blt ns (natFrac 99 100) ∨ Frac.blt cm (natFrac 1 1)) ∧
      Frac.blt (natFrac 9 10) score then
      score.fmin (natFrac 89 100)
    else score
  score

/-- One scored match. -/
structure MatchResult where
  subject_id : Str
  primary_name : Str
  country : Option Str
  dob_year : Option Int
  score : Frac
  components : ScoreComponents
deriving DecidableEq

/-- Scoring of one retrieved candidate inside `search_and_score`. -/
def mkMatchResult (normInput : Str) (inputParts : List Str)
    (countryIn : Option Str) (dobIn : Option Int) (c : Candidate) : MatchResult :=
  let normSubject := normalizeName c.primary_name
  let ns := computeNameSimilarity normInput inputParts normSubject
  let cm := countryMatch countryIn c.country
  let ds := dobSimilarity dobIn c.dob_year
  { subject_id := c.subject_id
    primary_name := c.primary_name
    country := c.country
    dob_year := c.dob_year
    score := scoreOne countryIn dobIn ns cm ds
    components := ⟨ns, ds, cm⟩ }

/-- Stable insertion into a sorted list: the new element goes before the
first element it may precede. -/
def insertLe {α : Type} (le : α → α → Bool) (x : α) : List α → List α
  | [] => [x]
  | y :: ys => if le x y then x :: y :: ys else y :: insertLe le x ys

/-- Stable sort by the given relation; models the stable `sort_by` of Rust,
whose output is uniquely determined for a total preorder comparator. -/
def sortByLe {α : Type} (le : α → α → Bool) : List α → List α
  | [] => []
  | x :: xs => insertLe le x (sortByLe le xs)

/-- The sort relation of `search_and_score`: `a` may precede `b` when the
comparator `b.score.partial_cmp(&a.score).unwrap_or(Equal)` is not
`Greater`; on real scores this is descending order. -/
def scoreDescLe (a b : MatchResult) : Bool := !(Frac.blt a.score b.score)

/-- Embedding of `search_and_score`: score every retrieved candidate, sort
by score descending, truncate to `maxResults`. -/
def searchAndScore (name : Str) (countryIn : Option Str) (dobIn : Option Int)
    (maxResults : Nat) (candidates : List Candidate) : List MatchResult :=
  let normInput := normalizeName name
  let inputParts := words normInput
  let results := candidates.map (mkMatchResult normInput inputParts countryIn dobIn)
  (sortByLe scoreDescLe results).take maxResults

/-- Risk bands of a hit. -/
inductive RiskLevel where
  | hit
  | review
  | none
deriving DecidableEq

/-- Risk banding of `perform_screening`: `≥ 0.95` is Hit, `≥ 0.90` is
Review, else None. -/
def riskLevel (s : Frac) : RiskLevel :=
  if Frac.ble (natFrac 95 100) s then .hit
  else if Frac.ble (natFrac 90 100) s then .review
  else .none

/-- One hit of the screening response. -/
structure Hit where
  subject_id : Str
  matched_name : Str
  score : Frac
  risk_level : RiskLevel
  components : ScoreComponents
deriving DecidableEq

/-- Embedding of `perform_screening` (engine path): `search_and_score` with
`max_results = 10`, then risk banding per hit. -/
def performScreening (name : Str) (countryIn : Option Str) (dobIn : Option Int)
    (candidates : List Candidate) : List Hit :=
  (searchAndScore name countryIn dobIn 10 candidates).map (fun m =>
    { subject_id := m.subject_id
      matched_name := m.primary_name
      score := m.score
      risk_level := riskLevel m.score
      components := m.components })

/-! NaN-aware view of the score sort.  An `f32` score is either NaN or a
real value; `partial_cmp` on floats returns `None` when either side is NaN,
and `search_and_score` collapses that to `Equal` via `unwrap_or`. -/

/-- An `f32` value: NaN or a real number. -/
inductive FScore where
  | nan
  | real (q : Frac)
deriving DecidableEq

/-- Model of `f32::partial_cmp`: `None` when either operand is NaN. -/
def fpartialCmp : FScore → FScore → Option Ordering
  | .real a, .real b =>
    some (if Frac.blt a b then .lt else if Frac.blt b a then .gt else .eq)
  | _, _ => none

/-- One result as seen by the sort: an identifier and an `f32` score. -/
structure FHit where
  id : Str
  score : FScore
deriving DecidableEq

/-- The comparator of `search_and_score` line 117:
`b.score.partial_cmp(&a.score).unwrap_or(Equal)`. -/
def hitCmp (a b : FHit) : Ordering := (fpartialCmp b.score a.score).getD .eq

/-- Sort relation induced by the comparator: `a` may precede `b` when the
comparator does not order it strictly after `b`. -/
def hitLe (a b : FHit) : Bool := hitCmp a b != .gt

/-- Embedding of the result ordering step of `search_and_score` (lines
117-119): stable sort by the comparator, then truncate to the caller's
limit. -/
def sortAndTruncate (limit : Nat) (l : List FHit) : List FHit :=
  (sortByLe hitLe l).take limit

/-- The ordering the specification asks for: descending scores with NaN
ranked below every real score. -/
def nanLeastGe (a b : FHit) : Bool :=
  match a.score, b.score with
  | _, .nan => true
  | .nan, .real _ => false
  | .real x, .real y => !(Frac.blt x y)

/-! Year extraction, embedded from `extract_year` in ingest `parser_eu.rs`.
`date_str.len()` and `date_str[..4]` are byte-level operations, so the
embedding works on the UTF-8 encoding: a slice at byte offset 4 exists only
when 4 is a character boundary, and Rust panics otherwise (modelled as
`Except.error`). -/

/-- UTF-8 encoding of one character. -/
def utf8Bytes (c : Char) : List Nat :=
  let n := c.toNat
  if n < 0x80 then [n]
  else if n < 0x800 then [0xC0 ||| (n >>> 6), 0x80 ||| (n &&& 0x3F)]
  else if n < 0x10000 then
    [0xE0 ||| (n >>> 12), 0x80 ||| ((n >>> 6) &&& 0x3F), 0x80 ||| (n &&& 0x3F)]
  else
    [0xF0 ||| (n >>> 18), 0x80 ||| ((n >>> 12) &&& 0x3F),
     0x80 ||| ((n >>> 6) &&& 0x3F), 0x80 ||| (n &&& 0x3F)]

/-- UTF-8 encoding of a string. -/
def strBytes (s : Str) : List Nat := s.flatMap utf8Bytes

/-- Model of `str::len`: the UTF-8 byte length. -/
def byteLen (s : Str) : Nat := (strBytes s).length

/-- Characters of the prefix occupying exactly `n` bytes, or `none` when
`n` is not a character boundary. -/
def takeBytes : Nat → Str → Option Str
  | 0, _ => some []
  | _ + 1, [] => none
  | n + 1, c :: cs =>
    if (utf8Bytes c).length ≤ n + 1 then
      (takeBytes (n + 1 - (utf8Bytes c).length) cs).map (fun r => c :: r)
    else none

/-- Digit-string value, `none` unless nonempty and all ASCII digits. -/
def digitsVal : Str → Option Nat
  | [] => none
  | [c] => if c.isDigit then some (c.toNat - 48) else none
  | c :: cs =>
    if c.isDigit then
      (digitsVal cs).map (fun v => (c.toNat - 48) * 10 ^ cs.length + v)
    else none

/-- Model of `str::parse::<i32>`: optional sign, one or more ASCII digits,
checked against the `i32` range. -/
def parseI32 (s : Str) : Option Int :=
  match s with
  | '+' :: rest =>
    (digitsVal rest).bind (fun n => if n ≤ 2147483647 then some (n : Int) else none)
  | '-' :: rest =>
    (digitsVal rest).bind (fun n => if n ≤ 2147483648 then some (-(n : Int)) else none)
  | _ => (digitsVal s).bind (fun n => if n ≤ 2147483647 then some (n : Int) else none)

/-- Embedding of `extract_year`: when the string is at least 4 bytes long,
parse its first four bytes as an `i32`; `Except.error` models the panic of
`date_str[..4]` when byte 4 splits a character. -/
def extractYear (s : Str) : Except Unit (Option Int) :=
  if 4 ≤ byteLen s then
    match takeBytes 4 s with
    | some pre => .ok (parseI32 pre)
    | none => .error ()
  else .ok none

/-- Total view of `extract_year` used by the XML parser embedding (the
panic case is settled separately through `extractYear`). -/
def extractYearOrNone (s : Str) : Option Int :=
  match extractYear s with
  | .ok v => v
  | .error _ => none

/-- Value of the window of 4 characters at the head, when they are all
ASCII digits. -/
def fourDigitsAt (s : Str) : Option Nat :=
  let w := s.take 4
  if w.length = 4 then digitsVal w else none

/-- Year extraction as the specification words it: the first contiguous
4-digit substring lying in [1900, 2100), scanning left to right; `none`
when there is no such window.  This is the specification-side definition
used to compare `extract_year` against its documented behaviour. -/
def extractYearSpec : Str → Option Int
  | [] => none
  | c :: cs =>
    match fourDigitsAt (c :: cs) with
    | some v =>
      if 1900 ≤ v ∧ v < 2100 then some (v : Int) else extractYearSpec cs
    | none => extractYearSpec cs

/-! EU roster parsing, embedded from `parse_eu_xml` and `SubjectBuilder` in
ingest `parser_eu.rs`.  The `quick_xml` tokenizer is external to the
repository; the embedding therefore works on the event stream it produces
(start/empty tags with attributes, end tags), which is exactly what the
parser's state machine consumes.  `char::is_alphanumeric` and
`str::to_uppercase` are modelled on their ASCII fragment (roster reference
ids and ISO country codes are ASCII). -/

/-- Subject kinds of the canonical model. -/
inductive SubjectKind where
  | person
  | entity
deriving DecidableEq

/-- One alias of a parsed subject. -/
structure ParsedAlias where
  name : Str
  alias_type : Str
deriving DecidableEq

/-- One canonical subject emitted by a parser. -/
structure ParsedSubject where
  source_ref : Str
  kind : SubjectKind
  primary_name : Str
  aliases : List ParsedAlias
  date_of_birth : Option Str
  date_of_birth_year : Option Int
  country : Option Str
  nationalities : List Str
deriving DecidableEq

/-- Incremental builder state for one `sanctionEntity` element. -/
structure SubjectBuilder where
  source_ref : Option Str := none
  kind : Option SubjectKind := none
  primary_name : Option Str := none
  aliases : List ParsedAlias := []
  date_of_birth : Option Str := none
  date_of_birth_year : Option Int := none
  country : Option Str := none
  nationalities : List Str := []
deriving DecidableEq

/-- ASCII uppercase of one character. -/
def asciiUpper (c : Char) : Char :=
  if 'a' ≤ c ∧ c ≤ 'z' then Char.ofNat (c.toNat - 32) else c

/-- ASCII uppercase of a string (model of `str::to_uppercase` on the ASCII
fragment). -/
def asciiUpperStr (s : Str) : Str := s.map asciiUpper

/-- Model of `str::trim`: strip leading and trailing whitespace. -/
def trimStr (s : Str) : Str :=
  ((s.dropWhile isWs).reverse.dropWhile isWs).reverse

/-- Embedding of `SubjectBuilder::build`: fails on a missing or empty
primary name, falls back to a slug for a missing source reference and to
the first nationality for a missing country, defaults the kind to person. -/
def SubjectBuilder.build (b : SubjectBuilder) : Option ParsedSubject :=
  match b.primary_name with
  | none => none
  | some pn =>
    if pn.isEmpty then none
    else
      let sourceRef := match b.source_ref with
        | some r => r
        | none => ("eu_").toList ++ (pn.filter Char.isAlphanum).take 20
      let country := match b.country with
        | some c => some c
        | none => b.nationalities.head?
      some
        { source_ref := sourceRef
          kind := b.kind.getD .person
          primary_name := pn
          aliases := b.aliases
          date_of_birth := b.date_of_birth
          date_of_birth_year := b.date_of_birth_year
          country := country
          nationalities := b.nationalities }

/-- An XML event as surfaced by the tokenizer: a start tag or an empty
(self-closing) tag carrying attributes, or an end tag. -/
inductive XmlEvent where
  | start (tag : Str) (attrs : List (Str × Str))
  | empty (tag : Str) (attrs : List (Str × Str))
  | endTag (tag : Str)
deriving DecidableEq

/-- Attribute pass of the `sanctionEntity` open tag: `logicalId` always
sets the source reference, `euReferenceNumber` only when still unset. -/
def applySanctionAttrs (b : SubjectBuilder) (attrs : List (Str × Str)) : SubjectBuilder :=
  attrs.foldl (fun b kv =>
    if kv.1 = ("logicalId").toList then { b with source_ref := some kv.2 }
    else if kv.1 = ("euReferenceNumber").toList then
      if b.source_ref.isNone then { b with source_ref := some kv.2 } else b
    else b) b

/-- Attribute pass of `subjectType`: a `code`/`classificationCode` value of
person/p or enterprise/e fixes the kind. -/
def applySubjectType (b : SubjectBuilder) (attrs : List (Str × Str)) : SubjectBuilder :=
  attrs.foldl (fun b kv =>
    if kv.1 = ("code").toList ∨ kv.1 = ("classificationCode").toList then
      let lower := lowerStr kv.2
      if lower = ("person").toList ∨ lower = ("p").toList then { b with kind := some .person }
      else if lower = ("enterprise").toList ∨ lower = ("e").toList then { b with kind := some .entity }
      else b
    else b) b

/-- Attribute pass of `nameAlias`: collect `wholeName`, `firstName`,
`lastName` (later occurrences overwrite). -/
def collectNameAttrs (attrs : List (Str × Str)) : Str × Str × Str :=
  attrs.foldl (fun acc kv =>
    if kv.1 = ("wholeName").toList then (kv.2, acc.2.1, acc.2.2)
    else if kv.1 = ("firstName").toList then (acc.1, kv.2, acc.2.2)
    else if kv.1 = ("lastName").toList then (acc.1, acc.2.1, kv.2)
    else acc) ([], [], [])

/-- Handling of one `nameAlias` element: the first nonempty name becomes
the primary name, every later nonempty name is appended as an "aka" alias
with no comparison against the primary name. -/
def applyNameAlias (b : SubjectBuilder) (attrs : List (Str × Str)) : SubjectBuilder :=
  let wfl := collectNameAttrs attrs
  let w := wfl.1
  let f := wfl.2.1
  let l := wfl.2.2
  let name := if !w.isEmpty then w
    else if !f.isEmpty ∨ !l.isEmpty then trimStr (f ++ ' ' :: l)
    else []
  if name.isEmpty then b
  else if b.primary_name.isNone then { b with primary_name := some name }
  else { b with aliases := b.aliases ++ [⟨name, ("aka").toList⟩] }

/-- Attribute pass of `citizenship`: nonempty `countryIso2Code` values
other than "00" are appended, uppercased, to the nationalities. -/
def applyCitizenship (b : SubjectBuilder) (attrs : List (Str × Str)) : SubjectBuilder :=
  attrs.foldl (fun b kv =>
    if kv.1 = ("countryIso2Code").toList ∧ !kv.2.isEmpty ∧ kv.2 ≠ ("00").toList then
      { b with nationalities := b.nationalities ++ [asciiUpperStr kv.2] }
    else b) b

/-- Attribute pass of `birthdate`: a parseable `year` fills the birth year
first; a nonempty `birthdate` fills the date and, failing a year so far,
its extracted year; `countryIso2Code` fills a missing country. -/
def applyBirthdate (b : SubjectBuilder) (attrs : List (Str × Str)) : SubjectBuilder :=
  attrs.foldl (fun b kv =>
    if kv.1 = ("year").toList then
      match parseI32 kv.2 with
      | some y => if b.date_of_birth_year.isNone then { b with date_of_birth_year := some y } else b
      | none => b
    else if kv.1 = ("birthdate").toList then
      if !kv.2.isEmpty ∧ b.date_of_birth.isNone then
        let b := { b with date_of_birth := some kv.2 }
        if b.date_of_birth_year.isNone then
          match extractYearOrNone kv.2 with
          | some y => { b with date_of_birth_year := some y }
          | none => b
        else b
      else b
    else if kv.1 = ("countryIso2Code").toList then
      if b.country.isNone ∧ !kv.2.isEmpty ∧ kv.2 ≠ ("00").toList then
        { b with country := some (asciiUpperStr kv.2) }
      else b
    else b) b

/-- Parser state: inside a `sanctionEntity`, the current builder, and the
subjects emitted so far. -/
structure EuParseState where
  inEntity : Bool
  builder : Option SubjectBuilder
  subjects : List ParsedSubject
deriving DecidableEq

/-- Handling of a start or empty tag. -/
def euOpenTag (st : EuParseState) (tag : Str) (attrs : List (Str × Str)) : EuParseState :=
  if tag = ("sanctionEntity").toList then
    { st with inEntity := true, builder := some (applySanctionAttrs {} attrs) }
  else if st.inEntity then
    match st.builder with
    | none => st
    | some b =>
      if tag = ("subjectType").toList then { st with builder := some (applySubjectType b attrs) }
      else if tag = ("nameAlias").toList then { st with builder := some (applyNameAlias b attrs) }
      else if tag = ("citizenship").toList then { st with builder := some (applyCitizenship b attrs) }
      else if tag = ("birthdate").toList then { st with builder := some (applyBirthdate b attrs) }
      else st
  else st

/-- One step of the parser state machine. -/
def euStep (st : EuParseState) (e : XmlEvent) : EuParseState :=
  match e with
  | .start tag attrs => euOpenTag st tag attrs
  | .empty tag attrs => euOpenTag st tag attrs
  | .endTag tag =>
    if tag = ("sanctionEntity").toList then
      let out := match st.builder with
        | some b =>
          match b.build with
          | some subject => st.subjects ++ [subject]
          | none => st.subjects
        | none => st.subjects
      { inEntity := false, builder := none, subjects := out }
    else st

/-- Embedding of `parse_eu_xml` over the tokenizer's event stream. -/
def parseEuXml (events : List XmlEvent) : List ParsedSubject :=
  (events.foldl euStep ⟨false, none, []⟩).subjects

/-! Subject store, embedded from `upsert_subjects` in ingest `loader.rs`
over the schema of `db.rs`.  `datetime('now')` is an input `now`; the
store is an in-order list of subject rows (primary key `id`) and a child
alias relation unique on `(subject_id, name, alias_type)`. -/

/-- One row of the `subject` table. -/
structure SubjectRow where
  id : Str
  kind : Str
  primary_name : Str
  date_of_birth : Option Str
  date_of_birth_year : Option Int
  country : Option Str
  source : Str
  source_ref : Str
  created_at : Str
  updated_at : Str
deriving DecidableEq

/-- One row of the `subject_alias` table. -/
structure AliasRow where
  subject_id : Str
  name : Str
  alias_type : Str
deriving DecidableEq

/-- The subject store. -/
structure Db where
  subjects : List SubjectRow
  aliases : List AliasRow
deriving DecidableEq

/-- Row of the subject table with the given id, if present. -/
def Db.lookup (db : Db) (id : Str) : Option SubjectRow :=
  db.subjects.find? (fun r => r.id == id)

/-- Upsert of one parsed subject: an existing row keeps its `kind`,
`source`, `source_ref` and `created_at` and has only the mutable fields
and `updated_at` replaced; a missing row is inserted; the alias set is
unconditionally replaced (delete then insert-or-ignore). -/
def upsertOne (source : Str) (now : Str) (db : Db) (s : ParsedSubject) : Db :=
  let subjectId := lowerStr source ++ '_' :: s.source_ref
  let kindStr := match s.kind with
    | .person => ("person").toList
    | .entity => ("entity").toList
  let exists_ := db.subjects.any (fun r => r.id == subjectId)
  let subjects :=
    if exists_ then
      db.subjects.map (fun r =>
        if r.id = subjectId then
          { r with
            primary_name := s.primary_name
            date_of_birth := s.date_of_birth
            date_of_birth_year := s.date_of_birth_year
            country := s.country
            updated_at := now }
        else r)
    else
      db.subjects ++
        [{ id := subjectId, kind := kindStr, primary_name := s.primary_name,
           date_of_birth := s.date_of_birth, date_of_birth_year := s.date_of_birth_year,
           country := s.country, source := source, source_ref := s.source_ref,
           created_at := now, updated_at := now }]
  let aliases := db.aliases.filter (fun a => a.subject_id ≠ subjectId)
  let aliases := s.aliases.foldl (fun acc al =>
    let row : AliasRow := ⟨subjectId, al.name, al.alias_type⟩
    if acc.any (fun a => a.subject_id == row.subject_id && a.name == row.name &&
        a.alias_type == row.alias_type) then acc
    else acc ++ [row]) aliases
  ⟨subjects, aliases⟩

/-- Embedding of `upsert_subjects`: upsert every parsed subject in order. -/
def upsertSubjects (db : Db) (subjects : List ParsedSubject) (source : Str) (now : Str) : Db :=
  subjects.foldl (upsertOne source now) db

/-! Monitoring, embedded from `compute_result_hash` (ingest `monitoring.rs`)
and the per-subscription step of `re_screen_monitored_subjects` (ingest
`main.rs`).  `DefaultHasher` is SipHash-1-3 with zero keys; hashing a
`&str` feeds its UTF-8 bytes plus a 0xff terminator, hashing an `i32` feeds
its 4 little-endian bytes; `format!("{:016x}", …)` is an injective
rendering of the final `u64`, modelled by the raw number. -/

/-- Two to the sixty-fourth, the word modulus of SipHash. -/
def M64 : Nat := 18446744073709551616

/-- Left rotation of a 64-bit word. -/
def rotl64 (x n : Nat) : Nat := ((x <<< n) % M64) ||| (x >>> (64 - n))

/-- Addition of 64-bit words. -/
def wadd (a b : Nat) : Nat := (a + b) % M64

/-- The four 64-bit state words of SipHash. -/
structure SipState where
  v0 : Nat
  v1 : Nat
  v2 : Nat
  v3 : Nat
deriving DecidableEq

/-- One SipHash round. -/
def sipRound (s : SipState) : SipState :=
  let v0 := wadd s.v0 s.v1
  let v1 := rotl64 s.v1 13
  let v1 := v1 ^^^ v0
  let v0 := rotl64 v0 32
  let v2 := wadd s.v2 s.v3
  let v3 := rotl64 s.v3 16
  let v3 := v3 ^^^ v2
  let v0 := wadd v0 v3
  let v3 := rotl64 v3 21
  let v3 := v3 ^^^ v0
  let v2 := wadd v2 v1
  let v1 := rotl64 v1 17
  let v1 := v1 ^^^ v2
  let v2 := rotl64 v2 32
  ⟨v0, v1, v2, v3⟩

/-- Compression of one message word (one round: SipHash-1-x). -/
def sipCompress (s : SipState) (m : Nat) : SipState :=
  let s := { s with v3 := s.v3 ^^^ m }
  let s := sipRound s
  { s with v0 := s.v0 ^^^ m }

/-- Little-endian word value of a byte list. -/
def leBytes (bs : List Nat) : Nat := bs.foldr (fun b acc => b + 256 * acc) 0

/-- Consume the full 8-byte blocks of the stream, returning the final state
and the tail of fewer than 8 bytes. -/
def sipBlocks : SipState → List Nat → SipState × List Nat
  | s, b0 :: b1 :: b2 :: b3 :: b4 :: b5 :: b6 :: b7 :: rest =>
    sipBlocks (sipCompress s (leBytes [b0, b1, b2, b3, b4, b5, b6, b7])) rest
  | s, tail => (s, tail)

/-- SipHash-1-3 with zero keys over a byte stream: the algorithm behind
`std::collections::hash_map::DefaultHasher`. -/
def sipHash13 (data : List Nat) : Nat :=
  let s0 : SipState :=
    ⟨0x736f6d6570736575, 0x646f72616e646f6d, 0x6c7967656e657261, 0x7465646279746573⟩
  let st := sipBlocks s0 data
  let b := ((data.length % 256) <<< 56) ||| leBytes st.2
  let s := sipCompress st.1 b
  let s := { s with v2 := s.v2 ^^^ 0xff }
  let s := sipRound (sipRound (sipRound s))
  s.v0 ^^^ s.v1 ^^^ s.v2 ^^^ s.v3

/-- Model of `(score * 100.0) as i32`: multiply by 100, truncate toward
zero, saturate at the `i32` bounds. -/
def quantScore (s : Frac) : Int :=
  let n := s.num * 100
  let q : Int := if 0 ≤ n then ((n.toNat / s.den : Nat) : Int)
    else -(((-n).toNat / s.den : Nat) : Int)
  if q > 2147483647 then 2147483647
  else if q < -2147483648 then -2147483648
  else q

/-- The 4 little-endian bytes of an `i32` value. -/
def i32LeBytes (q : Int) : List Nat :=
  let u := ((q % 4294967296 + 4294967296) % 4294967296).toNat
  [u &&& 0xFF, (u >>> 8) &&& 0xFF, (u >>> 16) &&& 0xFF, (u >>> 24) &&& 0xFF]

/-- Embedding of `compute_result_hash`: hash the ordered `(subject_id,
score)` pairs, each score quantized to `(score * 100.0) as i32`, through
`DefaultHasher`. -/
def computeResultHash (hits : List (Str × Frac)) : Nat :=
  sipHash13 (hits.flatMap (fun p => strBytes p.1 ++ [0xff] ++ i32LeBytes (quantScore p.2)))

/-- An active monitored subscription as read for re-screening. -/
structure MonitoredSubject where
  reference_id : Str
  name : Str
  country : Option Str
  dob_year : Option Int
  last_result_hash : Option Nat
deriving DecidableEq

/-- One raw hit of `SearchIndex::search` (ingest `indexer.rs`); the
retrieval step itself lives in the external full-text index. -/
structure SearchHit where
  subject_id : Str
  primary_name : Str
deriving DecidableEq

/-- One row recorded in `monitoring_result` for a re-screened subscription. -/
structure MonitoringRecord where
  result_hash : Nat
  hit_count : Nat
  highest_score : Frac
  has_changes : Bool
deriving DecidableEq

/-- Embedding of the per-subscription body of `re_screen_monitored_subjects`
(ingest `main.rs`): hash the `(subject_id, 0.9)` pairs of the raw index
hits, compare against the stored hash (changed when none was stored), and
record hit count and a 0.9/0.0 highest score. -/
def reScreenStep (sub : MonitoredSubject) (searchHits : List SearchHit) : MonitoringRecord :=
  let hitData := searchHits.map (fun h => (h.subject_id, natFrac 9 10))
  let newHash := computeResultHash hitData
  let hasChanges := match sub.last_result_hash with
    | some h => h ≠ newHash
    | none => true
  { result_hash := newHash
    hit_count := searchHits.length
    highest_score := if searchHits.isEmpty then natFrac 0 1 else natFrac 9 10
    has_changes := hasChanges }

/-- The result hash the claim describes: run the full query path with the
subscription's name, country and birth year, and hash the ordered
`(subject_id, score)` pairs of the resulting hits. -/
def claimedReScreenHash (sub : MonitoredSubject) (candidates : List Candidate) : Nat :=
  computeResultHash
    ((searchAndScore sub.name sub.country sub.dob_year 10 candidates).map
      (fun m => (m.subject_id, m.score)))

/-! Shared lemmas. -/

theorem foldl_invariant {α β : Type} (P : α → Prop) (f : α → β → α) (l : List β)
    (init : α) (h0 : P init) (hstep : ∀ a b, P a → P (f a b)) : P (l.foldl f init) := by
  induction l generalizing init with
  | nil => exact h0
  | cons b bs ih => exact ih _ (hstep _ _ h0)

theorem Frac.not_blt_of_ble {a b : Frac} (h : a.ble b = true) : b.blt a = false := by
  unfold Frac.ble at h
  unfold Frac.blt
  simp only [decide_eq_true_eq] at h
  simp only [decide_eq_false_iff_not]
  omega

theorem Frac.blt_of_not_ble {a b : Frac} (h : a.ble b = false) : b.blt a = true := by
  unfold Frac.ble at h
  unfold Frac.blt
  simp only [decide_eq_false_iff_not] at h
  simp only [decide_eq_true_eq]
  omega

theorem Frac.ble_of_blt {a b : Frac} (h : a.blt b = true) : a.ble b = true := by
  unfold Frac.blt at h
  unfold Frac.ble
  simp only [decide_eq_true_eq] at h
  simp only [decide_eq_true_eq]
  omega

theorem mem_insertLe {α : Type} {le : α → α → Bool} {x y : α} {l : List α} :
    x ∈ insertLe le y l ↔ x = y ∨ x ∈ l := by
  induction l with
  | nil => simp [insertLe]
  | cons z zs ih =>
    unfold insertLe
    split
    · simp
    · simp only [List.mem_cons, ih]
      tauto

theorem mem_sortByLe {α : Type} {le : α → α → Bool} {x : α} {l : List α} :
    x ∈ sortByLe le l ↔ x ∈ l := by
  induction l with
  | nil => simp [sortByLe]
  | cons y ys ih =>
    unfold sortByLe
    rw [mem_insertLe]
    simp [ih]

theorem length_insertLe {α : Type} (le : α → α → Bool) (x : α) (l : List α) :
    (insertLe le x l).length = l.length + 1 := by
  induction l with
  | nil => rfl
  | cons y ys ih =>
    unfold insertLe
    split <;> simp [ih]

theorem length_sortByLe {α : Type} (le : α → α → Bool) (l : List α) :
    (sortByLe le l).length = l.length := by
  induction l with
  | nil => rfl
  | cons y ys ih =>
    unfold sortByLe
    rw [length_insertLe, ih, List.length_cons]

/-! Positivity of every denominator produced by the scoring pipeline. -/

theorem jaroQ_pos (a b : Str) : (jaroQ a b).Pos := by
  unfold jaroQ
  dsimp only
  split
  · exact Nat.one_pos
  · split
    · exact Nat.one_pos
    · rename_i h1 h2
      split
      · exact Nat.one_pos
      · rename_i hm
        have ha : 0 < a.length := by
          rcases Nat.eq_zero_or_pos a.length with h | h
          · exact absurd (Or.inl h) h2
          · exact h
        have hb : 0 < b.length := by
          rcases Nat.eq_zero_or_pos b.length with h | h
          · exact absurd (Or.inr h) h2
          · exact h
        have hmp : 0 < (jaroMatch a b (a.length.max b.length / 2 - 1)).matchCount :=
          Nat.pos_of_ne_zero hm
        exact Frac.pos_mul (Frac.pos_natFrac (by norm_num))
          (Frac.pos_add (Frac.pos_add ha hb) hmp)

theorem jaroWinklerQ_pos (a b : Str) : (jaroWinklerQ a b).Pos := by
  unfold jaroWinklerQ
  exact Frac.pos_fmin
    (Frac.pos_add (jaroQ_pos a b)
      (Frac.pos_mul (Frac.pos_natFrac (by norm_num))
        (Frac.pos_sub (Frac.pos_natFrac (by norm_num)) (jaroQ_pos a b))))
    (Frac.pos_natFrac (by norm_num))

theorem jaroWinklerQ_le_one {a b : Str} : (jaroWinklerQ a b).val ≤ 1 := by
  unfold jaroWinklerQ
  dsimp only
  have h1 : (natFrac 1 1).Pos := Frac.pos_natFrac (by norm_num)
  have hp : (Frac.add (jaroQ a b)
      (Frac.mul (natFrac ((a.zip b).takeWhile (fun q => q.1 = q.2)).length 10)
        (Frac.sub (natFrac 1 1) (jaroQ a b)))).Pos :=
    Frac.pos_add (jaroQ_pos a b)
      (Frac.pos_mul (Frac.pos_natFrac (by norm_num))
        (Frac.pos_sub (Frac.pos_natFrac (by norm_num)) (jaroQ_pos a b)))
  rw [Frac.val_fmin hp h1]
  have h2 : (natFrac 1 1).val = 1 := by norm_num [Frac.val_natFrac]
  rw [h2]
  exact min_le_right _ _

theorem findBest_pos (x : Str) (sps : List Str) (used : List Bool) :
    (findBest x sps used).1.Pos := by
  unfold findBest
  apply foldl_invariant (fun acc : Frac × Option Nat => acc.1.Pos)
  · exact Frac.pos_natFrac (by norm_num)
  · intro acc b hacc
    dsimp only
    split
    · exact hacc
    · split
      · exact jaroWinklerQ_pos _ _
      · exact hacc

theorem partsStep_pos (sps : List Str) (st : PartsState) (x : Str)
    (h : st.total.Pos) : (partsStep sps st x).total.Pos := by
  unfold partsStep
  dsimp only
  split
  · exact Frac.pos_add h (findBest_pos _ _ _)
  · split
    · exact Frac.pos_add h (Frac.pos_mul (findBest_pos _ _ _) (Frac.pos_natFrac (by norm_num)))
    · exact h

theorem computePartsMatchScore_pos (ips sps : List Str) :
    (computePartsMatchScore ips sps).Pos := by
  unfold computePartsMatchScore
  dsimp only
  split
  · exact Frac.pos_natFrac (by norm_num)
  · rename_i hne
    have htot : (ips.foldl (partsStep sps)
        ⟨List.replicate sps.length false, natFrac 0 1, 0⟩).total.Pos := by
      apply foldl_invariant (fun st : PartsState => st.total.Pos)
      · exact Frac.pos_natFrac (by norm_num)
      · intro st x h; exact partsStep_pos sps st x h
    have hlen : 0 < ips.length := by
      rcases ips with _ | _
      · simp at hne
      · simp
    split
    · apply Frac.pos_fmax _ (Frac.pos_natFrac (by norm_num))
      apply Frac.pos_sub _ (Frac.pos_mul (Frac.pos_natFrac (by norm_num))
        (Frac.pos_natFrac (by norm_num)))
      split
      · exact Frac.pos_divNat htot (by omega)
      · exact Frac.pos_natFrac (by norm_num)
    · rename_i hm
      exact Frac.pos_divNat htot (by omega)

theorem computeNameSimilarity_pos (input : Str) (ips : List Str) (subject : Str) :
    (computeNameSimilarity input ips subject).Pos := by
  unfold computeNameSimilarity
  dsimp only
  have hps := computePartsMatchScore_pos ips (words subject)
  have hbonus : (if strContains subject input then natFrac 5 100 else natFrac 0 1).Pos := by
    split <;> exact Frac.pos_natFrac (by norm_num)
  split
  · exact Frac.pos_fmin (Frac.pos_add hps hbonus) (Frac.pos_natFrac (by norm_num))
  · split
    · exact Frac.pos_fmin
        (Frac.pos_add (Frac.pos_add
          (Frac.pos_mul (Frac.pos_natFrac (by norm_num)) hps)
          (Frac.pos_mul (Frac.pos_natFrac (by norm_num)) (jaroWinklerQ_pos _ _))) hbonus)
        (Frac.pos_natFrac (by norm_num))
    · exact Frac.pos_fmin
        (Frac.pos_mul (jaroWinklerQ_pos _ _) (Frac.pos_natFrac (by norm_num)))
        (Frac.pos_natFrac (by norm_num))

theorem countryMatch_pos (cIn cSubj : Option Str) : (countryMatch cIn cSubj).Pos := by
  unfold countryMatch
  rcases cIn with _ | c <;> rcases cSubj with _ | d
  · exact Frac.pos_natFrac (by norm_num)
  · exact Frac.pos_natFrac (by norm_num)
  · exact Frac.pos_natFrac (by norm_num)
  · dsimp only
    split <;> exact Frac.pos_natFrac (by norm_num)

theorem dobSimilarity_pos (dIn dSubj : Option Int) : (dobSimilarity dIn dSubj).Pos := by
  unfold dobSimilarity
  rcases dIn with _ | i <;> rcases dSubj with _ | s
  · exact Frac.pos_natFrac (by norm_num)
  · exact Frac.pos_natFrac (by norm_num)
  · exact Frac.pos_natFrac (by norm_num)
  · dsimp only
    split
    · exact Frac.pos_natFrac (by norm_num)
    · split
      · exact Frac.pos_natFrac (by norm_num)
      · exact Frac.pos_natFrac (by norm_num)

theorem dobSimilarity_le_one (dIn dSubj : Option Int) : (dobSimilarity dIn dSubj).val ≤ 1 := by
  unfold dobSimilarity
  rcases dIn with _ | i <;> rcases dSubj with _ | s <;>
    simp only [Frac.val_natFrac] <;> try norm_num
  split
  · norm_num [Frac.val_natFrac]
  · split <;> norm_num [Frac.val_natFrac]

theorem scoreOne_pos (countryIn : Option Str) (dobIn : Option Int) {ns cm ds : Frac}
    (hns : ns.Pos) (hcm : cm.Pos) (hds : ds.Pos) :
    (scoreOne countryIn dobIn ns cm ds).Pos := by
  unfold scoreOne
  dsimp only
  have hbase : (Frac.add (Frac.add (Frac.mul (natFrac 7 10) ns)
      (Frac.mul (natFrac 2 10) cm)) (Frac.mul (natFrac 1 10) ds)).Pos :=
    Frac.pos_add (Frac.pos_add
      (Frac.pos_mul (Frac.pos_natFrac (by norm_num)) hns)
      (Frac.pos_mul (Frac.pos_natFrac (by norm_num)) hcm))
      (Frac.pos_mul (Frac.pos_natFrac (by norm_num)) hds)
  have h95 : (natFrac 95 100).Pos := Frac.pos_natFrac (by norm_num)
  have h89 : (natFrac 89 100).Pos := Frac.pos_natFrac (by norm_num)
  split
  all_goals split
  all_goals split
  all_goals
    first
      | exact Frac.pos_fmin (Frac.pos_fmin (Frac.pos_fmax hbase h95) h89) h89
      | exact Frac.pos_fmin (Frac.pos_fmax hbase h95) h89
      | exact Frac.pos_fmax hbase h95
      | exact Frac.pos_fmin (Frac.pos_fmin hbase h89) h89
      | exact Frac.pos_fmin hbase h89
      | exact hbase

theorem Frac.blt_irrefl (a : Frac) : a.blt a = false := by
  unfold Frac.blt
  simp

/-- Every hit of `perform_screening` arises from one retrieved candidate,
with its components and score computed by the scoring pipeline. -/
theorem performScreening_spec {name : Str} {countryIn : Option Str} {dobIn : Option Int}
    {candidates : List Candidate} {h : Hit}
    (hmem : h ∈ performScreening name countryIn dobIn candidates) :
    ∃ cand ∈ candidates,
      h.components.name_similarity =
        computeNameSimilarity (normalizeName name) (words (normalizeName name))
          (normalizeName cand.primary_name) ∧
      h.components.country_match = countryMatch countryIn cand.country ∧
      h.components.dob_similarity = dobSimilarity dobIn cand.dob_year ∧
      h.score = scoreOne countryIn dobIn h.components.name_similarity
        h.components.country_match h.components.dob_similarity ∧
      h.risk_level = riskLevel h.score := by
  unfold performScreening searchAndScore at hmem
  dsimp only at hmem
  rw [List.mem_map] at hmem
  obtain ⟨m, hm, rfl⟩ := hmem
  have hm2 : m ∈ sortByLe scoreDescLe
      (candidates.map (mkMatchResult (normalizeName name) (words (normalizeName name))
        countryIn dobIn)) := List.take_subset _ _ hm
  rw [mem_sortByLe, List.mem_map] at hm2
  obtain ⟨cand, hcand, rfl⟩ := hm2
  exact ⟨cand, hcand, rfl, rfl, rfl, rfl, rfl⟩

/-- The country component is 1 or 0. -/
theorem countryMatch_cases (cIn cSubj : Option Str) :
    countryMatch cIn cSubj = natFrac 1 1 ∨ countryMatch cIn cSubj = natFrac 0 1 := by
  unfold countryMatch
  rcases cIn with _ | c <;> rcases cSubj with _ | d
  · right; rfl
  · right; rfl
  · right; rfl
  · dsimp only
    split
    · left; rfl
    · right; rfl

/-- Risk banding reaches Hit exactly on scores at least 0.95. -/
theorem riskLevel_hit_of_ge {s : Frac} (hsP : s.Pos) (h : (95 : ℚ)/100 ≤ s.val) :
    riskLevel s = .hit := by
  unfold riskLevel
  rw [if_pos]
  rw [Frac.ble_iff (Frac.pos_natFrac (by norm_num)) hsP]
  have h95 : (natFrac 95 100).val = 95/100 := by norm_num [Frac.val_natFrac]
  rw [h95]
  exact h

/-- Scores below 0.95 never band as Hit. -/
theorem riskLevel_ne_hit_of_lt {s : Frac} (hsP : s.Pos) (h : s.val < 95/100) :
    riskLevel s ≠ .hit := by
  unfold riskLevel
  rw [if_neg (by
    rw [Frac.ble_iff (Frac.pos_natFrac (by norm_num)) hsP]
    have h95 : (natFrac 95 100).val = 95/100 := by norm_num [Frac.val_natFrac]
    rw [h95]
    exact not_le.mpr h)]
  split <;> simp

/-- Cap rule 1 of `search_and_score`: a name component at least 0.99
together with a country component of 1 floors the score at 0.95, the later
cap rules do not fire, and the band is Hit. -/
theorem scoreOne_perfect {countryIn : Option Str} {dobIn : Option Int} {ns ds : Frac}
    (hnsP : ns.Pos) (hdsP : ds.Pos)
    (hns : Frac.ble (natFrac 99 100) ns = true) :
    (95 : ℚ)/100 ≤ (scoreOne countryIn dobIn ns (natFrac 1 1) ds).val ∧
    riskLevel (scoreOne countryIn dobIn ns (natFrac 1 1) ds) = .hit := by
  have hbasePos : (Frac.add (Frac.add (Frac.mul (natFrac 7 10) ns)
      (Frac.mul (natFrac 2 10) (natFrac 1 1))) (Frac.mul (natFrac 1 10) ds)).Pos :=
    Frac.pos_add (Frac.pos_add
      (Frac.pos_mul (Frac.pos_natFrac (by norm_num)) hnsP)
      (Frac.pos_mul (Frac.pos_natFrac (by norm_num)) (Frac.pos_natFrac (by norm_num))))
      (Frac.pos_mul (Frac.pos_natFrac (by norm_num)) hdsP)
  have hmaxPos : ((Frac.add (Frac.add (Frac.mul (natFrac 7 10) ns)
      (Frac.mul (natFrac 2 10) (natFrac 1 1))) (Frac.mul (natFrac 1 10) ds)).fmax
        (natFrac 95 100)).Pos :=
    Frac.pos_fmax hbasePos (Frac.pos_natFrac (by norm_num))
  have heq : scoreOne countryIn dobIn ns (natFrac 1 1) ds =
      (Frac.add (Frac.add (Frac.mul (natFrac 7 10) ns)
        (Frac.mul (natFrac 2 10) (natFrac 1 1))) (Frac.mul (natFrac 1 10) ds)).fmax
          (natFrac 95 100) := by
    unfold scoreOne
    dsimp only
    rw [if_neg (fun hc => by
      obtain ⟨-, -, hor, -⟩ := hc
      rcases hor with hlt | hlt
      · rw [Frac.not_blt_of_ble hns] at hlt
        exact Bool.false_ne_true hlt
      · exact absurd hlt (by decide))]
    rw [if_neg (fun hc => by
      obtain ⟨-, hlt, -⟩ := hc
      exact absurd hlt (by decide))]
    rw [if_pos ⟨hns, by decide⟩]
  rw [heq]
  have hge : (95 : ℚ)/100 ≤ ((Frac.add (Frac.add (Frac.mul (natFrac 7 10) ns)
      (Frac.mul (natFrac 2 10) (natFrac 1 1))) (Frac.mul (natFrac 1 10) ds)).fmax
        (natFrac 95 100)).val := by
    rw [Frac.val_fmax hbasePos (Frac.pos_natFrac (by norm_num))]
    have h95 : (natFrac 95 100).val = 95/100 := by norm_num [Frac.val_natFrac]
    rw [h95]
    exact le_max_right _ _
  exact ⟨hge, riskLevel_hit_of_ge hmaxPos hge⟩

/-- Cap rule 2 of `search_and_score`: with a supplied country, a zero
country component and a name component below 0.99 the final score stays
below the Hit band. -/
theorem scoreOne_countryCapped {c : Str} {dobIn : Option Int} {ns ds : Frac}
    (hnsP : ns.Pos) (hdsP : ds.Pos)
    (hns : ns.val < 99/100) (hds1 : ds.val ≤ 1) :
    riskLevel (scoreOne (some c) dobIn ns (natFrac 0 1) ds) ≠ .hit := by
  have h710 : (natFrac 7 10).Pos := Frac.pos_natFrac (by norm_num)
  have h210 : (natFrac 2 10).Pos := Frac.pos_natFrac (by norm_num)
  have h110 : (natFrac 1 10).Pos := Frac.pos_natFrac (by norm_num)
  have h01 : (natFrac 0 1).Pos := Frac.pos_natFrac (by norm_num)
  have h89 : (natFrac 89 100).Pos := Frac.pos_natFrac (by norm_num)
  have hbasePos : (Frac.add (Frac.add (Frac.mul (natFrac 7 10) ns)
      (Frac.mul (natFrac 2 10) (natFrac 0 1))) (Frac.mul (natFrac 1 10) ds)).Pos :=
    Frac.pos_add (Frac.pos_add (Frac.pos_mul h710 hnsP) (Frac.pos_mul h210 h01))
      (Frac.pos_mul h110 hdsP)
  have hbaseVal : (Frac.add (Frac.add (Frac.mul (natFrac 7 10) ns)
      (Frac.mul (natFrac 2 10) (natFrac 0 1))) (Frac.mul (natFrac 1 10) ds)).val < 95/100 := by
    rw [Frac.val_add (Frac.pos_add (Frac.pos_mul h710 hnsP) (Frac.pos_mul h210 h01))
      (Frac.pos_mul h110 hdsP),
      Frac.val_add (Frac.pos_mul h710 hnsP) (Frac.pos_mul h210 h01),
      Frac.val_mul h710 hnsP, Frac.val_mul h210 h01, Frac.val_mul h110 hdsP]
    have e1 : (natFrac 7 10).val = 7/10 := by norm_num [Frac.val_natFrac]
    have e2 : (natFrac 2 10).val = 2/10 := by norm_num [Frac.val_natFrac]
    have e3 : (natFrac 1 10).val = 1/10 := by norm_num [Frac.val_natFrac]
    have e4 : (natFrac 0 1).val = 0 := by norm_num [Frac.val_natFrac]
    rw [e1, e2, e3, e4]
    nlinarith
  have capBound : ∀ s : Frac, s.Pos → s.val < 95/100 →
      ∀ (cond : Prop) (inst : Decidable cond),
      (@ite _ cond inst (s.fmin (natFrac 89 100)) s).Pos ∧
      (@ite _ cond inst (s.fmin (natFrac 89 100)) s).val < 95/100 := by
    intro s hsP hsv cond inst
    split
    · refine ⟨Frac.pos_fmin hsP h89, ?_⟩
      rw [Frac.val_fmin hsP h89]
      have h89v : (natFrac 89 100).val = 89/100 := by norm_num [Frac.val_natFrac]
      rw [h89v]
      have hm : min s.val ((89:ℚ)/100) ≤ 89/100 := min_le_right _ _
      linarith
    · exact ⟨hsP, hsv⟩
  have hn1 : ¬(Frac.ble (natFrac 99 100) ns = true ∧
      Frac.ble (natFrac 1 1) (natFrac 0 1) = true) :=
    fun hc => absurd hc.2 (by decide)
  unfold scoreOne
  dsimp only
  simp only [if_neg hn1]
  apply riskLevel_ne_hit_of_lt
  · exact (capBound _ (capBound _ hbasePos hbaseVal _ _).1
      (capBound _ hbasePos hbaseVal _ _).2 _ _).1
  · exact (capBound _ (capBound _ hbasePos hbaseVal _ _).1
      (capBound _ hbasePos hbaseVal _ _).2 _ _).2

/-! Claim C1. -/

/-- C1: for every screened candidate, a name-similarity component of at
least 0.99 together with a country component of 1.0 yields, after the three
cap/floor rules in order, a final score of at least 0.95 and a returned
risk_level of Hit. -/
theorem c1_perfect_identity_reaches_hit
    (name : Str) (countryIn : Option Str) (dobIn : Option Int)
    (candidates : List Candidate) (h : Hit)
    (hmem : h ∈ performScreening name countryIn dobIn candidates)
    (hname : (99 : ℚ)/100 ≤ h.components.name_similarity.val)
    (hcountry : h.components.country_match.val = 1) :
    (95 : ℚ)/100 ≤ h.score.val ∧ h.risk_level = .hit := by
  obtain ⟨cand, -, hns, hcm, hds, hscore, hrisk⟩ := performScreening_spec hmem
  have hnsP : h.components.name_similarity.Pos := by
    rw [hns]; exact computeNameSimilarity_pos _ _ _
  have hdsP : h.components.dob_similarity.Pos := by
    rw [hds]; exact dobSimilarity_pos _ _
  have hcm1 : h.components.country_match = natFrac 1 1 := by
    rcases countryMatch_cases countryIn cand.country with hc | hc
    · rw [hcm, hc]
    · exfalso
      rw [hcm, hc] at hcountry
      norm_num [Frac.val_natFrac] at hcountry
  have hble : Frac.ble (natFrac 99 100) h.components.name_similarity = true := by
    rw [Frac.ble_iff (Frac.pos_natFrac (by norm_num)) hnsP]
    have h99 : (natFrac 99 100).val = 99/100 := by norm_num [Frac.val_natFrac]
    rw [h99]
    exact hname
  rw [hcm1] at hscore
  have hres := @scoreOne_perfect countryIn dobIn _ _ hnsP hdsP hble
  constructor
  · rw [hscore]; exact hres.1
  · rw [hrisk, hscore]; exact hres.2

/-- Concrete candidate for the C1 witness. -/
def c1Cand : Candidate :=
  ⟨("eu_13").toList, ("Saddam Hussein Al-Tikriti").toList, some (("IQ").toList), some 1937⟩

/-- Concrete hit produced for the C1 witness scenario. -/
def c1Hit : Hit :=
  { subject_id := ("eu_13").toList
    matched_name := ("Saddam Hussein Al-Tikriti").toList
    score := ⟨1000, 1000⟩
    risk_level := .hit
    components := ⟨⟨1, 1⟩, ⟨1, 1⟩, ⟨1, 1⟩⟩ }

theorem c1_perfect_identity_reaches_hit_witness :
    (95 : ℚ)/100 ≤ c1Hit.score.val ∧ c1Hit.risk_level = .hit := by
  have hmem : c1Hit ∈ performScreening (("Saddam Hussein Al-Tikriti").toList)
      (some (("IQ").toList)) (some 1937) [c1Cand] := by decide
  exact c1_perfect_identity_reaches_hit _ _ _ _ _ hmem
    (by norm_num [c1Hit, Frac.val]) (by norm_num [c1Hit, Frac.val])

/-! Claim C2. -/

/-- C2: when a screening request supplies a country, every returned hit
with a zero country component and a name component below 0.99 has a risk
level other than Hit. -/
theorem c2_country_mismatch_never_hit
    (name : Str) (c : Str) (dobIn : Option Int)
    (candidates : List Candidate) (h : Hit)
    (hmem : h ∈ performScreening name (some c) dobIn candidates)
    (hcountry : h.components.country_match.val = 0)
    (hname : h.components.name_similarity.val < 99/100) :
    h.risk_level ≠ .hit := by
  obtain ⟨cand, -, hns, hcm, hds, hscore, hrisk⟩ := performScreening_spec hmem
  have hnsP : h.components.name_similarity.Pos := by
    rw [hns]; exact computeNameSimilarity_pos _ _ _
  have hdsP : h.components.dob_similarity.Pos := by
    rw [hds]; exact dobSimilarity_pos _ _
  have hcm0 : h.components.country_match = natFrac 0 1 := by
    rcases countryMatch_cases (some c) cand.country with hc | hc
    · exfalso
      rw [hcm, hc] at hcountry
      norm_num [Frac.val_natFrac] at hcountry
    · rw [hcm, hc]
  have hds1 : h.components.dob_similarity.val ≤ 1 := by
    rw [hds]; exact dobSimilarity_le_one _ _
  rw [hcm0] at hscore
  rw [hrisk, hscore]
  exact scoreOne_countryCapped hnsP hdsP hname hds1

/-- Concrete candidate for the C2 witness. -/
def c2Cand : Candidate :=
  ⟨("eu_13").toList, ("Saddam Hussein Al-Tikriti").toList, some (("IQ").toList), some 1937⟩

/-- Concrete hit produced for the C2 witness scenario: a close but
imperfect name, a mismatched country, no supplied birth year. -/
def c2Hit : Hit :=
  { subject_id := ("eu_13").toList
    matched_name := ("Saddam Hussein Al-Tikriti").toList
    score := ⟨29434456248750000, 42883060500000000⟩
    risk_level := .none
    components := ⟨⟨42049223212500, 42883060500000⟩, ⟨0, 1⟩, ⟨0, 1⟩⟩ }

theorem c2_country_mismatch_never_hit_witness : c2Hit.risk_level ≠ .hit := by
  have hmem : c2Hit ∈ performScreening (("Sadam Hussein").toList)
      (some (("US").toList)) none [c2Cand] := by decide
  exact c2_country_mismatch_never_hit _ _ _ _ _ hmem
    (by norm_num [c2Hit, Frac.val]) (by norm_num [c2Hit, Frac.val])

/-! Claim C7. -/

/-- Decidable equality for the `extract_year` result type. -/
instance : DecidableEq (Except Unit (Option Int)) := fun a b =>
  match a, b with
  | .ok x, .ok y =>
    if h : x = y then isTrue (by rw [h]) else
      isFalse (fun hc => h (by injection hc))
  | .error x, .error y => isTrue (by cases x; cases y; rfl)
  | .ok _, .error _ => isFalse (fun hc => Except.noConfusion hc)
  | .error _, .ok _ => isFalse (fun hc => Except.noConfusion hc)

theorem utf8Bytes_ascii {c : Char} (h : c.toNat < 128) : utf8Bytes c = [c.toNat] := by
  unfold utf8Bytes
  rw [if_pos h]

theorem byteLen_ascii : ∀ (s : Str), (∀ c ∈ s, c.toNat < 128) → byteLen s = s.length := by
  intro s
  induction s with
  | nil => intro _; rfl
  | cons c cs ih =>
    intro h
    show ((c :: cs).flatMap utf8Bytes).length = (c :: cs).length
    rw [List.flatMap_cons, List.length_append,
      utf8Bytes_ascii (h c (List.mem_cons_self c cs))]
    have hcs := ih (fun d hd => h d (List.mem_cons_of_mem c hd))
    unfold byteLen strBytes at hcs
    rw [hcs]
    simp only [List.length_cons, List.length_nil]
    omega

theorem takeBytes_ascii {s : Str} (h : ∀ c ∈ s, c.toNat < 128) :
    ∀ n, n ≤ s.length → takeBytes n s = some (s.take n) := by
  induction s with
  | nil =>
    intro n hn
    have : n = 0 := Nat.le_zero.mp hn
    subst this
    rfl
  | cons c cs ih =>
    intro n hn
    cases n with
    | zero => rfl
    | succ m =>
      unfold takeBytes
      rw [utf8Bytes_ascii (h c (List.mem_cons_self c cs))]
      rw [if_pos (by simp)]
      simp only [List.length_singleton, Nat.add_sub_cancel]
      rw [ih (fun d hd => h d (List.mem_cons_of_mem c hd)) m (by simpa using hn)]
      rfl

/-- C7 counterexample: on "28/04/1937" the code parses the first four bytes
and yields no year while the specified extraction yields 1937, and on a
string whose fourth byte splits a character the byte slice panics instead
of failing softly. -/
theorem c7_counterexample :
    extractYear (("28/04/1937").toList) = .ok none ∧
    extractYearSpec (("28/04/1937").toList) = some 1937 ∧
    extractYear (("abcé1937").toList) = .error () := by
  refine ⟨?_, ?_, ?_⟩ <;> decide

/-- C7 as amended: on ASCII input `extract_year` never panics and returns
exactly the `i32` parse of the first four characters when the string has at
least four of them (no digit scan, no [1900, 2100) range check), and `none`
on shorter strings. -/
theorem c7_first_four_bytes_parse (s : Str) (h : ∀ c ∈ s, c.toNat < 128) :
    extractYear s = .ok (if 4 ≤ s.length then parseI32 (s.take 4) else none) := by
  unfold extractYear
  rw [byteLen_ascii s h]
  split
  · rename_i hlen
    rw [takeBytes_ascii h 4 hlen]
  · rfl

theorem c7_first_four_bytes_parse_witness :
    extractYear (("0001-05-06").toList) = .ok (some 1) := by
  rw [c7_first_four_bytes_parse (("0001-05-06").toList) (by decide)]
  decide

/-! Claim C9. -/

/-- Event stream of a `sanctionEntity` whose second name repeats the first:
the tokenization of
`<sanctionEntity logicalId="1"><nameAlias wholeName="Abu Ali"/>
<nameAlias wholeName="Abu Ali"/></sanctionEntity>`. -/
def c9Events : List XmlEvent :=
  [ .start (("sanctionEntity").toList) [((("logicalId").toList), (("1").toList))],
    .empty (("nameAlias").toList) [((("wholeName").toList), (("Abu Ali").toList))],
    .empty (("nameAlias").toList) [((("wholeName").toList), (("Abu Ali").toList))],
    .endTag (("sanctionEntity").toList) ]

/-- The subject the parser builds from `c9Events`. -/
def c9Subject : ParsedSubject :=
  { source_ref := ("1").toList
    kind := .person
    primary_name := ("Abu Ali").toList
    aliases := [⟨("Abu Ali").toList, ("aka").toList⟩]
    date_of_birth := none
    date_of_birth_year := none
    country := none
    nationalities := [] }

/-- C9 counterexample: the parser emits a subject carrying an alias whose
normalization equals the normalization of its primary name. -/
theorem c9_counterexample :
    parseEuXml c9Events = [c9Subject] ∧
    c9Subject.aliases.map (fun a => normalizeName a.name) =
      [normalizeName c9Subject.primary_name] := by
  refine ⟨?_, ?_⟩ <;> decide

/-- C9 as amended: no alias filtering happens anywhere on the path: a
nonempty `wholeName` seen after the primary name is appended as an "aka"
alias with no comparison against the primary name, and the builder hands
the collected aliases through unchanged. -/
theorem c9_aliases_unfiltered :
    (∀ (b : SubjectBuilder) (name : Str), b.primary_name.isSome = true →
      name.isEmpty = false →
      applyNameAlias b [((("wholeName").toList), name)] =
        { b with aliases := b.aliases ++ [⟨name, ("aka").toList⟩] }) ∧
    (∀ (b : SubjectBuilder) (pn : Str), b.primary_name = some pn →
      pn.isEmpty = false →
      (SubjectBuilder.build b).map ParsedSubject.aliases = some b.aliases) := by
  constructor
  · intro b name hsome hne
    obtain ⟨sr, k, pn, al, dob, doby, co, na⟩ := b
    cases pn with
    | none => simp at hsome
    | some p => simp [applyNameAlias, collectNameAttrs, hne]
  · intro b pn hpn hne
    obtain ⟨sr, k, pn0, al, dob, doby, co, na⟩ := b
    cases hpn
    simp [SubjectBuilder.build, hne]

/-- Builder state for the C9 witness: a primary name is already set. -/
def c9Builder : SubjectBuilder := { primary_name := some (("Abu Ali").toList) }

theorem c9_aliases_unfiltered_witness :
    applyNameAlias c9Builder [((("wholeName").toList), (("Abu Ali").toList))] =
      { c9Builder with aliases := [⟨("Abu Ali").toList, ("aka").toList⟩] } ∧
    (SubjectBuilder.build c9Builder).map ParsedSubject.aliases = some [] := by
  constructor
  · have h := c9_aliases_unfiltered.1 c9Builder (("Abu Ali").toList) (by decide) (by decide)
    simpa using h
  · exact c9_aliases_unfiltered.2 c9Builder (("Abu Ali").toList) rfl (by decide)

/-! Claim C10. -/

theorem lookup_map_update (upd : SubjectRow → SubjectRow)
    (hupd : ∀ r, (upd r).id = r.id) (l : List SubjectRow) (sid : Str)
    (old : SubjectRow) (h : l.find? (fun r => r.id == sid) = some old) :
    (l.map (fun r => if r.id = sid then upd r else r)).find?
      (fun r => r.id == sid) = some (upd old) := by
  induction l with
  | nil => simp at h
  | cons r rs ih =>
    by_cases hr : r.id = sid
    · rw [List.find?_cons_of_pos _ (by simp [hr])] at h
      obtain rfl : r = old := by injection h
      rw [List.map_cons, if_pos hr,
        List.find?_cons_of_pos _ (by simp [hupd, hr])]
    · rw [List.find?_cons_of_neg _ (by simp [hr])] at h
      rw [List.map_cons, if_neg hr,
        List.find?_cons_of_neg _ (by simp [hr])]
      exact ih h

/-- C10: updating an existing subject row replaces only the mutable fields
(`primary_name`, `date_of_birth`, `date_of_birth_year`, `country`,
`updated_at`) while `kind`, `source`, `source_ref` and `created_at` stay as
stored, and the nationalities of the incoming subjects never influence the
store on either path. -/
theorem c10_upsert_frame_effect :
    (∀ (db : Db) (s : ParsedSubject) (source now : Str) (old : SubjectRow),
      db.lookup (lowerStr source ++ '_' :: s.source_ref) = some old →
      (upsertOne source now db s).lookup (lowerStr source ++ '_' :: s.source_ref) =
        some { old with
               primary_name := s.primary_name
               date_of_birth := s.date_of_birth
               date_of_birth_year := s.date_of_birth_year
               country := s.country
               updated_at := now }) ∧
    (∀ (db : Db) (subjects : List ParsedSubject) (source now : Str)
      (f : ParsedSubject → List Str),
      upsertSubjects db (subjects.map (fun s => { s with nationalities := f s })) source now =
        upsertSubjects db subjects source now) := by
  constructor
  · intro db s source now old h
    unfold Db.lookup at h
    unfold upsertOne Db.lookup
    dsimp only
    rw [if_pos (List.any_eq_true.mpr
      ⟨old, List.mem_of_find?_eq_some h, List.find?_some h⟩)]
    exact lookup_map_update
      (fun r => { r with
        primary_name := s.primary_name
        date_of_birth := s.date_of_birth
        date_of_birth_year := s.date_of_birth_year
        country := s.country
        updated_at := now })
      (fun r => rfl) _ _ _ h
  · intro db subjects source now f
    unfold upsertSubjects
    induction subjects generalizing db with
    | nil => rfl
    | cons s ss ih =>
      rw [List.map_cons, List.foldl_cons, List.foldl_cons]
      exact ih (upsertOne source now db s)

/-- Store with one stored row for the C10 witness. -/
def c10Row : SubjectRow :=
  { id := ("eu_x1").toList, kind := ("person").toList, primary_name := ("Old Name").toList,
    date_of_birth := none, date_of_birth_year := none, country := none,
    source := ("EU").toList, source_ref := ("x1").toList,
    created_at := ("t0").toList, updated_at := ("t0").toList }

/-- Incoming subject for the C10 witness, differing on every mutable field
and on the immutable ones. -/
def c10Subject : ParsedSubject :=
  { source_ref := ("x1").toList, kind := .entity, primary_name := ("New Name").toList,
    aliases := [], date_of_birth := some (("1980-01-01").toList),
    date_of_birth_year := some 1980, country := some (("US").toList),
    nationalities := [("US").toList] }

theorem c10_upsert_frame_effect_witness :
    (upsertOne (("EU").toList) (("t1").toList) ⟨[c10Row], []⟩ c10Subject).lookup
        (lowerStr (("EU").toList) ++ '_' :: c10Subject.source_ref) =
      some { c10Row with
             primary_name := c10Subject.primary_name
             date_of_birth := c10Subject.date_of_birth
             date_of_birth_year := c10Subject.date_of_birth_year
             country := c10Subject.country
             updated_at := ("t1").toList } ∧
    upsertSubjects ⟨[c10Row], []⟩
        ([c10Subject].map (fun s => { s with nationalities := [("ZZ").toList] }))
        (("EU").toList) (("t1").toList) =
      upsertSubjects ⟨[c10Row], []⟩ [c10Subject] (("EU").toList) (("t1").toList) := by
  constructor
  · exact c10_upsert_frame_effect.1 ⟨[c10Row], []⟩ c10Subject _ _ c10Row (by decide)
  · exact c10_upsert_frame_effect.2 ⟨[c10Row], []⟩ [c10Subject] _ _ _

/-! Claim C3. -/

/-- Subscription for the C3 counterexample. -/
def c3Sub : MonitoredSubject :=
  ⟨("r1").toList, ("abc").toList, none, none, none⟩

/-- Raw index hits the re-screening loop receives for `c3Sub`. -/
def c3Hits : List SearchHit := [⟨("s1").toList, ("abc").toList⟩]

/-- The corpus candidate behind those hits. -/
def c3Candidates : List Candidate := [⟨("s1").toList, ("abc").toList, none, none⟩]

/-- C3 counterexample: the hash the re-screening loop records differs from
the hash of the full query path's `(subject_id, score)` pairs (the loop
hashes a hardcoded 0.9 score, the real score here is 0.7), and the loop's
record is insensitive to the subscription's country and birth year. -/
theorem c3_counterexample :
    (reScreenStep c3Sub c3Hits).result_hash ≠ claimedReScreenHash c3Sub c3Candidates ∧
    reScreenStep { c3Sub with country := some (("IQ").toList), dob_year := some 1937 }
        c3Hits = reScreenStep c3Sub c3Hits := by
  constructor
  · decide
  · rfl

/-- C3 as amended: re-screening hashes the `(subject_id, 0.9)` pairs of a
raw name-only index search, so the record depends only on the stored hash
of the subscription and the ordered subject ids of the hits, and
`has_changes` holds exactly when the stored hash is absent or different. -/
theorem c3_rescreen_hash_shape :
    (∀ (sub sub' : MonitoredSubject) (hits : List SearchHit),
      sub.last_result_hash = sub'.last_result_hash →
      reScreenStep sub hits = reScreenStep sub' hits) ∧
    (∀ (sub : MonitoredSubject) (hits hits' : List SearchHit),
      hits.map SearchHit.subject_id = hits'.map SearchHit.subject_id →
      reScreenStep sub hits = reScreenStep sub hits') ∧
    (∀ (sub : MonitoredSubject) (hits : List SearchHit),
      (reScreenStep sub hits).has_changes = true ↔
        sub.last_result_hash ≠ some (reScreenStep sub hits).result_hash) := by
  refine ⟨?_, ?_, ?_⟩
  · intro sub sub' hits h
    unfold reScreenStep
    rw [h]
  · intro sub hits hits' h
    have hpairs : hits.map (fun h => (h.subject_id, natFrac 9 10)) =
        hits'.map (fun h => (h.subject_id, natFrac 9 10)) := by
      have e1 : ∀ l : List SearchHit, l.map (fun h => (h.subject_id, natFrac 9 10)) =
          (l.map SearchHit.subject_id).map (fun i => (i, natFrac 9 10)) := by
        intro l
        rw [List.map_map]
        rfl
      rw [e1, e1, h]
    have hlen : hits.length = hits'.length := by
      rw [← List.length_map hits SearchHit.subject_id, h, List.length_map]
    have hie : hits.isEmpty = hits'.isEmpty := by
      cases hhe : hits.isEmpty
      · symm
        rw [Bool.eq_false_iff]
        intro hcon
        rw [List.isEmpty_iff_length_eq_zero] at hcon
        rw [← hlen] at hcon
        rw [← List.isEmpty_iff_length_eq_zero] at hcon
        rw [hhe] at hcon
        exact Bool.false_ne_true hcon
      · symm
        rw [List.isEmpty_iff_length_eq_zero, ← hlen,
          ← List.isEmpty_iff_length_eq_zero]
        exact hhe
    unfold reScreenStep
    rw [hpairs, hlen, hie]
  · intro sub hits
    unfold reScreenStep
    dsimp only
    cases sub.last_result_hash with
    | none => simp
    | some h => simp

theorem c3_rescreen_hash_shape_witness :
    reScreenStep ⟨("r2").toList, ("other name").toList, some (("IQ").toList), some 1937,
        none⟩ c3Hits = reScreenStep c3Sub c3Hits ∧
    ((reScreenStep c3Sub c3Hits).has_changes = true ↔
      c3Sub.last_result_hash ≠ some (reScreenStep c3Sub c3Hits).result_hash) := by
  constructor
  · exact c3_rescreen_hash_shape.1 _ _ c3Hits rfl
  · exact c3_rescreen_hash_shape.2.2 c3Sub c3Hits

/-! Claim C4. -/

/-- The comparator is total: for any two results one may precede the
other (incomparable pairs collapse to `Equal`, which counts both ways). -/
theorem hitLe_total (a b : FHit) : hitLe a b = true ∨ hitLe b a = true := by
  unfold hitLe hitCmp fpartialCmp
  cases a.score with
  | nan => cases b.score <;> (left; dsimp only; decide)
  | real qa =>
    cases b.score with
    | nan => left; dsimp only; decide
    | real qb =>
      dsimp only
      by_cases h1 : Frac.blt qb qa = true
      · left
        rw [if_pos h1]
        decide
      · by_cases h2 : Frac.blt qa qb = true
        · right
          rw [if_pos h2]
          decide
        · left
          rw [if_neg h1, if_neg h2]
          decide

/-- On real scores with well-formed denominators the sort relation is
descending order of values. -/
theorem hitLe_real_iff {a b : FHit} {qa qb : Frac}
    (ha : a.score = .real qa) (hb : b.score = .real qb)
    (hpa : qa.Pos) (hpb : qb.Pos) :
    hitLe a b = true ↔ qb.val ≤ qa.val := by
  unfold hitLe hitCmp fpartialCmp
  rw [ha, hb]
  dsimp only
  by_cases h1 : Frac.blt qb qa = true
  · have hv := (Frac.blt_iff hpb hpa).mp h1
    rw [if_pos h1]
    exact iff_of_true (by decide) (le_of_lt hv)
  · rw [if_neg h1]
    by_cases h2 : Frac.blt qa qb = true
    · have hv := (Frac.blt_iff hpa hpb).mp h2
      rw [if_pos h2]
      exact iff_of_false (by decide) (not_le.mpr hv)
    · rw [if_neg h2]
      have hv2 : ¬ qa.val < qb.val := fun hc => h2 ((Frac.blt_iff hpa hpb).mpr hc)
      exact iff_of_true (by decide) (le_of_not_lt hv2)

/-- Well-formed real score. -/
def GoodHit (x : FHit) : Prop := ∃ q : Frac, x.score = .real q ∧ q.Pos

theorem hitLe_trans (a b c : FHit) (ga : GoodHit a) (gb : GoodHit b) (gc : GoodHit c)
    (h1 : hitLe a b = true) (h2 : hitLe b c = true) : hitLe a c = true := by
  obtain ⟨qa, ha, hpa⟩ := ga
  obtain ⟨qb, hb, hpb⟩ := gb
  obtain ⟨qc, hc, hpc⟩ := gc
  rw [hitLe_real_iff ha hb hpa hpb] at h1
  rw [hitLe_real_iff hb hc hpb hpc] at h2
  rw [hitLe_real_iff ha hc hpa hpc]
  linarith

theorem pairwise_insertLe {α : Type} (le : α → α → Bool) (G : α → Prop)
    (htot : ∀ a b, le a b = true ∨ le b a = true)
    (htrans : ∀ a b c, G a → G b → G c → le a b = true → le b c = true → le a c = true)
    (x : α) (l : List α) (hx : G x) (hl : ∀ b ∈ l, G b)
    (hs : List.Pairwise (fun a b => le a b = true) l) :
    List.Pairwise (fun a b => le a b = true) (insertLe le x l) := by
  induction l with
  | nil => simp [insertLe]
  | cons y ys ih =>
    rw [List.pairwise_cons] at hs
    unfold insertLe
    split
    · rename_i hxy
      rw [List.pairwise_cons]
      refine ⟨?_, List.pairwise_cons.mpr hs⟩
      intro b hb
      rcases List.mem_cons.mp hb with rfl | hb
      · exact hxy
      · exact htrans x y b hx (hl y (List.mem_cons_self y ys))
          (hl b (List.mem_cons_of_mem y hb)) hxy (hs.1 b hb)
    · rename_i hxy
      rw [List.pairwise_cons]
      constructor
      · intro b hb
        rcases mem_insertLe.mp hb with rfl | hb
        · rcases htot b y with h | h
          · exact absurd h hxy
          · exact h
        · exact hs.1 b hb
      · exact ih (fun b hb => hl b (List.mem_cons_of_mem y hb)) hs.2

theorem pairwise_sortByLe {α : Type} (le : α → α → Bool) (G : α → Prop)
    (htot : ∀ a b, le a b = true ∨ le b a = true)
    (htrans : ∀ a b c, G a → G b → G c → le a b = true → le b c = true → le a c = true)
    (l : List α) (hl : ∀ b ∈ l, G b) :
    List.Pairwise (fun a b => le a b = true) (sortByLe le l) := by
  induction l with
  | nil => simp [sortByLe]
  | cons y ys ih =>
    unfold sortByLe
    exact pairwise_insertLe le G htot htrans y (sortByLe le ys)
      (hl y (List.mem_cons_self y ys))
      (fun b hb => hl b (List.mem_cons_of_mem y (mem_sortByLe.mp hb)))
      (ih (fun b hb => hl b (List.mem_cons_of_mem y hb)))

/-- NaN result for the C4 counterexample. -/
def c4NanHit : FHit := ⟨("a").toList, .nan⟩

/-- Real-scored result for the C4 counterexample. -/
def c4RealHit : FHit := ⟨("b").toList, .real (natFrac 1 2)⟩

/-- C4 counterexample: a NaN-scored result placed before a real one is left
in place (the comparator collapses the incomparable pair to Equal), so the
output is not ordered with NaN below every real score. -/
theorem c4_counterexample :
    sortAndTruncate 10 [c4NanHit, c4RealHit] = [c4NanHit, c4RealHit] ∧
    ¬ List.Pairwise (fun a b => nanLeastGe a b = true)
      (sortAndTruncate 10 [c4NanHit, c4RealHit]) := by
  refine ⟨by decide, ?_⟩
  intro hcon
  rw [show sortAndTruncate 10 [c4NanHit, c4RealHit] = [c4NanHit, c4RealHit] from by decide]
      at hcon
  rw [List.pairwise_cons] at hcon
  exact absurd (hcon.1 c4RealHit (List.mem_singleton_self _)) (by decide)

/-- C4 as amended: the sort of `search_and_score` orders the hit list by
the comparator `b.score.partial_cmp(&a.score).unwrap_or(Equal)` — on real
scores descending order — and truncates to the caller's limit; a NaN score
is treated as Equal to (tied with) every score, not as less than the real
scores. -/
theorem c4_sort_descending_nan_ties :
    (∀ (l : List FHit) (limit : Nat), (∀ x ∈ l, GoodHit x) →
      List.Pairwise (fun a b => hitLe a b = true) (sortAndTruncate limit l) ∧
      (sortAndTruncate limit l).length = min limit l.length) ∧
    (∀ (a b : FHit), a.score = .nan → hitCmp a b = .eq) := by
  constructor
  · intro l limit hl
    constructor
    · exact List.Pairwise.sublist (List.take_sublist _ _)
        (pairwise_sortByLe hitLe GoodHit hitLe_total hitLe_trans l hl)
    · unfold sortAndTruncate
      rw [List.length_take, length_sortByLe]
  · intro a b ha
    unfold hitCmp fpartialCmp
    rw [ha]
    cases b.score <;> rfl

/-- Real-scored list for the C4 witness. -/
def c4List : List FHit :=
  [⟨("a").toList, .real (natFrac 1 2)⟩, ⟨("b").toList, .real (natFrac 3 4)⟩]

theorem c4_sort_descending_nan_ties_witness :
    (List.Pairwise (fun a b => hitLe a b = true) (sortAndTruncate 1 c4List) ∧
      (sortAndTruncate 1 c4List).length = min 1 c4List.length) ∧
    hitCmp c4NanHit c4RealHit = .eq := by
  constructor
  · refine c4_sort_descending_nan_ties.1 c4List 1 ?_
    intro x hx
    rcases List.mem_cons.mp hx with rfl | hx
    · exact ⟨natFrac 1 2, rfl, by norm_num [Frac.Pos, natFrac]⟩
    · rcases List.mem_cons.mp hx with rfl | hx
      · exact ⟨natFrac 3 4, rfl, by norm_num [Frac.Pos, natFrac]⟩
      · simp at hx
  · exact c4_sort_descending_nan_ties.2 c4NanHit c4RealHit rfl

/-! Claim C5. -/

/-- The best-match value of the greedy assignment is a well-formed value in
[0, 1]: it starts at 0 and only ever moves strictly up to a Jaro-Winkler
value, which is clamped at 1. -/
theorem findBest_bounds (x : Str) (sps : List Str) (used : List Bool) :
    (findBest x sps used).1.Pos ∧ 0 ≤ (findBest x sps used).1.val ∧
      (findBest x sps used).1.val ≤ 1 := by
  unfold findBest
  apply foldl_invariant
    (fun acc : Frac × Option Nat => acc.1.Pos ∧ 0 ≤ acc.1.val ∧ acc.1.val ≤ 1)
  · refine ⟨Frac.pos_natFrac (by norm_num), ?_, ?_⟩ <;>
      norm_num [Frac.val, natFrac]
  · intro acc b hacc
    dsimp only
    split
    · exact hacc
    · split
      · rename_i hlt
        have hp := jaroWinklerQ_pos x b.2
        refine ⟨hp, ?_, jaroWinklerQ_le_one⟩
        have := (Frac.blt_iff hacc.1 hp).mp hlt
        linarith [hacc.2.1]
      · exact hacc

/-- Invariant of the greedy fold: the credited total is well formed,
nonnegative, and at most the number of matched tokens. -/
theorem partsFold_total_le_matched (sps : List Str) (ips : List Str) :
    (ips.foldl (partsStep sps)
      ⟨List.replicate sps.length false, natFrac 0 1, 0⟩).total.Pos ∧
    0 ≤ (ips.foldl (partsStep sps)
      ⟨List.replicate sps.length false, natFrac 0 1, 0⟩).total.val ∧
    (ips.foldl (partsStep sps)
      ⟨List.replicate sps.length false, natFrac 0 1, 0⟩).total.val ≤
      (ips.foldl (partsStep sps)
        ⟨List.replicate sps.length false, natFrac 0 1, 0⟩).matched := by
  have h := foldl_invariant
    (fun st : PartsState => st.total.Pos ∧ 0 ≤ st.total.val ∧ st.total.val ≤ st.matched)
    (partsStep sps) ips ⟨List.replicate sps.length false, natFrac 0 1, 0⟩
    (by refine ⟨Frac.pos_natFrac (by norm_num), ?_, ?_⟩ <;>
      norm_num [Frac.val, natFrac])
    (by
      intro st x hst
      obtain ⟨hP, h0, hle⟩ := hst
      have hb := findBest_bounds x sps st.used
      unfold partsStep
      dsimp only
      split
      · refine ⟨Frac.pos_add hP hb.1, ?_, ?_⟩
        · rw [Frac.val_add hP hb.1]
          linarith [hb.2.1]
        · rw [Frac.val_add hP hb.1]
          push_cast
          have := hb.2.2
          linarith
      · split
        · have h810 : (natFrac 8 10).Pos := Frac.pos_natFrac (by norm_num)
          refine ⟨Frac.pos_add hP (Frac.pos_mul hb.1 h810), ?_, ?_⟩
          · rw [Frac.val_add hP (Frac.pos_mul hb.1 h810), Frac.val_mul hb.1 h810]
            have h810v : (natFrac 8 10).val = 8/10 := by norm_num [Frac.val_natFrac]
            rw [h810v]
            nlinarith [hb.2.1, hb.2.2]
          · rw [Frac.val_add hP (Frac.pos_mul hb.1 h810), Frac.val_mul hb.1 h810]
            have h810v : (natFrac 8 10).val = 8/10 := by norm_num [Frac.val_natFrac]
            rw [h810v]
            push_cast
            nlinarith [hb.2.1, hb.2.2]
        · exact ⟨hP, h0, hle⟩)
  exact h

/-- When some input token is unmatched the parts score is bounded by 0.75:
credit over matched tokens averages to at most 1 and at least one 0.25
penalty applies. -/
theorem computePartsMatchScore_unmatched_le (ips sps : List Str)
    (hne : ips.isEmpty = false) (hse : sps.isEmpty = false)
    (hunm : (ips.foldl (partsStep sps)
      ⟨List.replicate sps.length false, natFrac 0 1, 0⟩).matched < ips.length) :
    (computePartsMatchScore ips sps).val ≤ 3/4 := by
  unfold computePartsMatchScore
  rw [if_neg (by simp [hne, hse])]
  dsimp only
  rw [if_pos hunm]
  obtain ⟨hP, h0, hle⟩ := partsFold_total_le_matched sps ips
  set st := ips.foldl (partsStep sps)
    ⟨List.replicate sps.length false, natFrac 0 1, 0⟩ with hst
  have h14 : (natFrac 1 4).Pos := Frac.pos_natFrac (by norm_num)
  have hmiss : (natFrac (ips.length - st.matched) 1).Pos := Frac.pos_natFrac (by norm_num)
  have hpen : (Frac.mul (natFrac 1 4) (natFrac (ips.length - st.matched) 1)).Pos :=
    Frac.pos_mul h14 hmiss
  have hbaseP : (if st.matched > 0 then st.total.divNat st.matched else natFrac 0 1).Pos := by
    split
    · exact Frac.pos_divNat hP (by omega)
    · exact Frac.pos_natFrac (by norm_num)
  have hbase1 : (if st.matched > 0 then st.total.divNat st.matched
      else natFrac 0 1).val ≤ 1 := by
    split
    · rename_i hm
      rw [Frac.val_divNat hP hm]
      rw [div_le_one (by exact_mod_cast hm)]
      exact hle
    · norm_num [Frac.val, natFrac]
  have hpenv : 1/4 ≤ (Frac.mul (natFrac 1 4)
      (natFrac (ips.length - st.matched) 1)).val := by
    rw [Frac.val_mul h14 hmiss]
    have e1 : (natFrac 1 4).val = 1/4 := by norm_num [Frac.val_natFrac]
    have e2 : (natFrac (ips.length - st.matched) 1).val =
        ((ips.length - st.matched : Nat) : ℚ) := by
      rw [Frac.val_natFrac]
      norm_num
    rw [e1, e2]
    have hmiss1 : 1 ≤ ips.length - st.matched := by omega
    have : (1 : ℚ) ≤ ((ips.length - st.matched : Nat) : ℚ) := by exact_mod_cast hmiss1
    nlinarith
  rw [Frac.val_fmax (Frac.pos_sub hbaseP hpen) (Frac.pos_natFrac (by norm_num))]
  rw [Frac.val_sub hbaseP hpen]
  have e0 : (natFrac 0 1).val = 0 := by norm_num [Frac.val_natFrac]
  rw [e0]
  rw [max_le_iff]
  constructor
  · linarith
  · norm_num

/-- Input tokens for the C5 counterexample. -/
def c5Parts : List Str := [("xq").toList, ("zw").toList]

/-- Subject string for the C5 counterexample. -/
def c5Subject : Str := ("alexander").toList

/-- C5 counterexample: both input tokens are unmatched, so the claimed
return value is the clamped penalized value 0, yet the name similarity
returned is the capped full-string Jaro-Winkler 0.85·(59/135) ≈ 0.371: the
penalized value is not returned directly. -/
theorem c5_counterexample :
    (c5Parts.foldl (partsStep (words c5Subject))
      ⟨List.replicate (words c5Subject).length false, natFrac 0 1, 0⟩).matched <
        c5Parts.length ∧
    (computePartsMatchScore c5Parts (words c5Subject)).val = 0 ∧
    (computeNameSimilarity (("xq zw").toList) c5Parts c5Subject).val ≠ 0 := by
  refine ⟨by decide, ?_, ?_⟩
  · rw [show computePartsMatchScore c5Parts (words c5Subject) = natFrac 0 1 from by decide]
    norm_num [Frac.val_natFrac]
  · rw [show computeNameSimilarity (("xq zw").toList) c5Parts c5Subject =
      ⟨6770250, 18225000⟩ from by decide]
    norm_num [Frac.val, natFrac]

/-- C5 as amended: when an input token is unmatched the penalized parts
score (at most 0.75) does not leave `compute_parts_match_score` as the
final answer; `compute_name_similarity` still branches on it, never taking
the ≥ 0.9 branch, blending with the full-string Jaro-Winkler when the
penalized score is at least 0.7 and otherwise returning the capped
full-string Jaro-Winkler. -/
theorem c5_unmatched_flows_into_blend (input : Str) (ips : List Str) (subject : Str)
    (hne : ips.isEmpty = false) (hse : (words subject).isEmpty = false)
    (hunm : (ips.foldl (partsStep (words subject))
      ⟨List.replicate (words subject).length false, natFrac 0 1, 0⟩).matched <
        ips.length) :
    (computePartsMatchScore ips (words subject)).val ≤ 3/4 ∧
    computeNameSimilarity input ips subject =
      (if Frac.ble (natFrac 7 10) (computePartsMatchScore ips (words subject)) then
        Frac.fmin (Frac.add (Frac.add
          (Frac.mul (natFrac 7 10) (computePartsMatchScore ips (words subject)))
          (Frac.mul (natFrac 3 10) (jaroWinklerQ input subject)))
          (if strContains subject input then natFrac 5 100 else natFrac 0 1))
          (natFrac 1 1)
      else Frac.fmin ((jaroWinklerQ input subject).mul (natFrac 85 100))
        (natFrac 75 100)) := by
  have hb := computePartsMatchScore_unmatched_le ips (words subject) hne hse hunm
  refine ⟨hb, ?_⟩
  unfold computeNameSimilarity
  dsimp only
  rw [if_neg (by
    intro hc
    have := (Frac.ble_iff (Frac.pos_natFrac (by norm_num))
      (computePartsMatchScore_pos ips (words subject))).mp hc
    have e910 : (natFrac 9 10).val = 9/10 := by norm_num [Frac.val_natFrac]
    rw [e910] at this
    linarith)]

theorem c5_unmatched_flows_into_blend_witness :
    (computePartsMatchScore c5Parts (words c5Subject)).val ≤ 3/4 ∧
    computeNameSimilarity (("xq zw").toList) c5Parts c5Subject =
      (if Frac.ble (natFrac 7 10) (computePartsMatchScore c5Parts (words c5Subject)) then
        Frac.fmin (Frac.add (Frac.add
          (Frac.mul (natFrac 7 10) (computePartsMatchScore c5Parts (words c5Subject)))
          (Frac.mul (natFrac 3 10) (jaroWinklerQ (("xq zw").toList) c5Subject)))
          (if strContains c5Subject (("xq zw").toList) then natFrac 5 100 else natFrac 0 1))
          (natFrac 1 1)
      else Frac.fmin ((jaroWinklerQ (("xq zw").toList) c5Subject).mul (natFrac 85 100))
        (natFrac 75 100)) :=
  c5_unmatched_flows_into_blend (("xq zw").toList) c5Parts c5Subject
    (by decide) (by decide) (by decide)

/-! Claim C6. -/

/-- Invariant of the best-match scan: the running best is a well-formed
value in [0, 1], and whenever it reaches 1 the recorded index points at an
unused subject token of similarity 1. -/
def FBInv (x : Str) (B : List Str) (used : List Bool) (acc : Frac × Option Nat) : Prop :=
  acc.1.Pos ∧ 0 ≤ acc.1.val ∧ acc.1.val ≤ 1 ∧
  (acc.1.val = 1 → ∃ j, acc.2 = some j ∧ ∃ hj : j < B.length,
    used.getD j false = false ∧ (jaroWinklerQ x B[j]).val = 1)

theorem FBInv_step (x : Str) (B : List Str) (used : List Bool)
    (p : Nat × Str) (acc : Frac × Option Nat)
    (hp : ∃ hp : p.1 < B.length, B[p.1] = p.2)
    (hinv : FBInv x B used acc) :
    FBInv x B used
      (if used.getD p.1 false then acc
       else
         let sim := jaroWinklerQ x p.2
         if Frac.blt acc.1 sim then (sim, some p.1) else acc) := by
  obtain ⟨hpos, h0, h1, hfound⟩ := hinv
  split
  · exact ⟨hpos, h0, h1, hfound⟩
  · rename_i hused
    dsimp only
    split
    · rename_i hblt
      have hsimP := jaroWinklerQ_pos x p.2
      have hv := (Frac.blt_iff hpos hsimP).mp hblt
      refine ⟨hsimP, by linarith, jaroWinklerQ_le_one, ?_⟩
      intro hone
      obtain ⟨hlt, hB⟩ := hp
      refine ⟨p.1, rfl, hlt, by simpa using hused, ?_⟩
      rw [hB]
      exact hone
    · exact ⟨hpos, h0, h1, hfound⟩

theorem findBest_fold_inv (x : Str) (B : List Str) (used : List Bool) :
    ∀ (l : List (Nat × Str)) (acc : Frac × Option Nat),
    (∀ p ∈ l, ∃ hp : p.1 < B.length, B[p.1] = p.2) →
    FBInv x B used acc →
    FBInv x B used (l.foldl (fun acc jsp =>
      if used.getD jsp.1 false then acc
      else
        let sim := jaroWinklerQ x jsp.2
        if Frac.blt acc.1 sim then (sim, some jsp.1) else acc) acc) := by
  intro l
  induction l with
  | nil => intro acc _ hinv; exact hinv
  | cons p ps ih =>
    intro acc henum hinv
    rw [List.foldl_cons]
    exact ih _ (fun q hq => henum q (List.mem_cons_of_mem p hq))
      (FBInv_step x B used p acc (henum p (List.mem_cons_self p ps)) hinv)

theorem findBest_fold_reaches (x : Str) (B : List Str) (used : List Bool) :
    ∀ (l : List (Nat × Str)) (acc : Frac × Option Nat),
    (∀ p ∈ l, ∃ hp : p.1 < B.length, B[p.1] = p.2) →
    FBInv x B used acc →
    ((∃ p ∈ l, used.getD p.1 false = false ∧ (jaroWinklerQ x p.2).val = 1) ∨
      acc.1.val = 1) →
    (l.foldl (fun acc jsp =>
      if used.getD jsp.1 false then acc
      else
        let sim := jaroWinklerQ x jsp.2
        if Frac.blt acc.1 sim then (sim, some jsp.1) else acc) acc).1.val = 1 := by
  intro l
  induction l with
  | nil =>
    intro acc _ _ hreach
    rcases hreach with ⟨p, hp, -⟩ | h1
    · simp at hp
    · exact h1
  | cons p ps ih =>
    intro acc henum hinv hreach
    rw [List.foldl_cons]
    have henum' := fun q hq => henum q (List.mem_cons_of_mem p hq)
    have hinv' := FBInv_step x B used p acc (henum p (List.mem_cons_self p ps)) hinv
    rcases hreach with ⟨q, hq, hqu, hq1⟩ | h1
    · rcases List.mem_cons.mp hq with rfl | hq
      · by_cases hused : used.getD q.1 false = true
        · rw [hused] at hqu
          exact absurd hqu (by simp)
        · apply ih _ henum' hinv'
          right
          rw [if_neg hused]
          dsimp only
          split
          · exact hq1
          · rename_i hblt
            have hsimP := jaroWinklerQ_pos x q.2
            have hle1 := hinv.2.2.1
            have : ¬ acc.1.val < (jaroWinklerQ x q.2).val :=
              fun hc => hblt ((Frac.blt_iff hinv.1 hsimP).mpr hc)
            rw [hq1] at this
            linarith
      · exact ih _ henum' hinv' (Or.inl ⟨q, hq, hqu, hq1⟩)
    · apply ih _ henum' hinv'
      right
      split
      · exact h1
      · dsimp only
        split
        · rename_i hblt
          have hsimP := jaroWinklerQ_pos x p.2
          have := (Frac.blt_iff hinv.1 hsimP).mp hblt
          have hone := @jaroWinklerQ_le_one x p.2
          rw [h1] at this
          linarith
        · exact h1

/-- When an unused exact copy of the input token exists, the best-match
scan ends at value 1 pointing at an unused similarity-1 token. -/
theorem findBest_exact (x : Str) (B : List Str) (used : List Bool)
    (hself : (jaroWinklerQ x x).val = 1)
    (hex : ∃ j, ∃ hj : j < B.length, B[j] = x ∧ used.getD j false = false) :
    (findBest x B used).1.val = 1 ∧
    ∃ j, (findBest x B used).2 = some j ∧ ∃ hj : j < B.length,
      used.getD j false = false ∧ (jaroWinklerQ x B[j]).val = 1 := by
  obtain ⟨j0, hj0, hBj0, hu0⟩ := hex
  have henum : ∀ p ∈ B.enum, ∃ hp : p.1 < B.length, B[p.1] = p.2 := by
    intro p hp
    have := List.mem_enum_iff_getElem?.mp hp
    have hlt : p.1 < B.length := by
      by_contra hc
      rw [List.getElem?_eq_none (by omega)] at this
      exact Option.noConfusion this
    refine ⟨hlt, ?_⟩
    rw [List.getElem?_eq_getElem hlt] at this
    injection this
  have hinv0 : FBInv x B used (natFrac 0 1, none) := by
    refine ⟨Frac.pos_natFrac (by norm_num), by norm_num [Frac.val, natFrac],
      by norm_num [Frac.val, natFrac], ?_⟩
    intro hone
    norm_num [Frac.val, natFrac] at hone
  have hwit : ((j0 : Nat), B[j0]) ∈ B.enum := by
    rw [List.mem_enum_iff_getElem?]
    exact List.getElem?_eq_getElem hj0
  constructor
  · unfold findBest
    apply findBest_fold_reaches x B used B.enum _ henum hinv0
    left
    refine ⟨(j0, B[j0]), hwit, hu0, ?_⟩
    dsimp only
    rw [hBj0]
    exact hself
  · have hfin := findBest_fold_inv x B used B.enum (natFrac 0 1, none) henum hinv0
    have hone : (findBest x B used).1.val = 1 := by
      unfold findBest
      apply findBest_fold_reaches x B used B.enum _ henum hinv0
      left
      refine ⟨(j0, B[j0]), hwit, hu0, ?_⟩
      dsimp only
      rw [hBj0]
      exact hself
    have := hfin.2.2.2
    unfold findBest at hone
    exact (by
      have h2 := this hone
      unfold findBest
      exact h2)

theorem getD_set_ne (l : List Bool) {i j : Nat} (h : i ≠ j) (x : Bool) :
    (l.set i x).getD j false = l.getD j false := by
  rw [List.getD_eq_getElem?_getD, List.getD_eq_getElem?_getD, List.getElem?_set_ne h]

theorem getD_replicate_false (n j : Nat) :
    (List.replicate n false).getD j false = false := by
  rw [List.getD_eq_getElem?_getD]
  rcases h : (List.replicate n (false : Bool))[j]? with _ | b
  · rfl
  · rw [List.eq_of_mem_replicate (List.getElem?_mem h)]
    rfl

/-- Greedy fold in the exact-match regime: with pairwise-distinct input
tokens each having an unused verbatim copy among the subject tokens whose
only similarity-1 partner is itself, every step credits exactly 1. -/
theorem greedy_all_exact (B : List Str) :
    ∀ (A : List Str) (used : List Bool) (total : Frac) (matched : Nat),
    A.Nodup →
    (∀ a ∈ A, (jaroWinklerQ a a).val = 1) →
    (∀ a ∈ A, ∀ b ∈ B, (jaroWinklerQ a b).val = 1 → b = a) →
    (∀ a ∈ A, ∃ j, ∃ hj : j < B.length, B[j] = a ∧ used.getD j false = false) →
    total.Pos →
    (A.foldl (partsStep B) ⟨used, total, matched⟩).total.Pos ∧
    (A.foldl (partsStep B) ⟨used, total, matched⟩).total.val = total.val + A.length ∧
    (A.foldl (partsStep B) ⟨used, total, matched⟩).matched = matched + A.length := by
  intro A
  induction A with
  | nil =>
    intro used total matched _ _ _ _ hP
    exact ⟨hP, by simp, by simp⟩
  | cons a A' ih =>
    intro used total matched hnd hself huniq hex hP
    have hfb := findBest_exact a B used (hself a (List.mem_cons_self a A')) (by
      obtain ⟨j, hj, hBj, hu⟩ := hex a (List.mem_cons_self a A')
      exact ⟨j, hj, hBj, hu⟩)
    obtain ⟨hval1, j0, hbidx, hj0, hu0, hjw0⟩ := hfb
    have hbP : (findBest a B used).1.Pos := findBest_pos a B used
    have hBj0 : B[j0] = a :=
      huniq a (List.mem_cons_self a A') (B[j0]) (List.getElem_mem hj0) hjw0
    rw [List.foldl_cons]
    have hstep : partsStep B ⟨used, total, matched⟩ a =
        ⟨used.set j0 true, total.add (findBest a B used).1, matched + 1⟩ := by
      unfold partsStep
      dsimp only
      rw [if_pos (by
        rw [Frac.ble_iff (Frac.pos_natFrac (by norm_num)) hbP, hval1]
        norm_num [Frac.val, natFrac])]
      rw [hbidx]
    rw [hstep]
    have hnd' : A'.Nodup := (List.nodup_cons.mp hnd).2
    have hamem : a ∉ A' := (List.nodup_cons.mp hnd).1
    have ihres := ih (used.set j0 true) (total.add (findBest a B used).1) (matched + 1)
      hnd'
      (fun a' ha' => hself a' (List.mem_cons_of_mem a ha'))
      (fun a' ha' => huniq a' (List.mem_cons_of_mem a ha'))
      (by
        intro a' ha'
        obtain ⟨j', hj', hB', hu'⟩ := hex a' (List.mem_cons_of_mem a ha')
        have hne : j0 ≠ j' := by
          intro he
          subst he
          rw [hBj0] at hB'
          rw [hB'] at hamem
          exact hamem ha'
        exact ⟨j', hj', hB', by rw [getD_set_ne _ hne]; exact hu'⟩)
      (Frac.pos_add hP hbP)
    refine ⟨ihres.1, ?_, ?_⟩
    · rw [ihres.2.1, Frac.val_add hP hbP, hval1, List.length_cons]
      push_cast
      ring
    · rw [ihres.2.2, List.length_cons]
      omega

/-- Score 1 in the exact-match regime. -/
theorem partsScore_exact_one (A B : List Str) (hnd : A.Nodup) (hne : A ≠ [])
    (hsub : ∀ a ∈ A, a ∈ B)
    (hself : ∀ a ∈ A, (jaroWinklerQ a a).val = 1)
    (huniq : ∀ a ∈ A, ∀ b ∈ B, (jaroWinklerQ a b).val = 1 → b = a) :
    (computePartsMatchScore A B).val = 1 := by
  have hAlen : 0 < A.length := by
    rcases A with _ | ⟨a, A⟩
    · exact absurd rfl hne
    · simp
  have hBne : B ≠ [] := by
    rcases A with _ | ⟨a, A⟩
    · exact absurd rfl hne
    · intro hB
      have := hsub a (List.mem_cons_self a A)
      rw [hB] at this
      simp at this
  unfold computePartsMatchScore
  rw [if_neg (by
    simp only [List.isEmpty_iff]
    rintro (h | h)
    · exact hne h
    · exact hBne h)]
  dsimp only
  have hg := greedy_all_exact B A (List.replicate B.length false) (natFrac 0 1) 0
    hnd hself huniq
    (by
      intro a ha
      obtain ⟨j, hj, hBj⟩ := List.mem_iff_getElem.mp (hsub a ha)
      exact ⟨j, hj, hBj, getD_replicate_false _ _⟩)
    (Frac.pos_natFrac (by norm_num))
  have h0v : (natFrac 0 1).val = 0 := by norm_num [Frac.val, natFrac]
  rw [if_neg (by
    rw [hg.2.2]
    omega)]
  rw [Frac.val_divNat hg.1 (by rw [hg.2.2]; omega)]
  rw [hg.2.1, hg.2.2, h0v]
  rw [zero_add, Nat.zero_add]
  rw [div_self (by exact_mod_cast Nat.pos_iff_ne_zero.mp hAlen)]

/-- C6 counterexample: against the single subject token "martin", the
inputs ("martin", "martinez") score 0.75 while the swapped permutation
scores 43/60: the greedy parts-match score is order-sensitive. -/
theorem c6_counterexample :
    List.Perm [("martin").toList, ("martinez").toList]
      [("martinez").toList, ("martin").toList] ∧
    (computePartsMatchScore [("martin").toList, ("martinez").toList]
        [("martin").toList]).val ≠
      (computePartsMatchScore [("martinez").toList, ("martin").toList]
        [("martin").toList]).val := by
  constructor
  · exact List.Perm.swap _ _ _
  · rw [show computePartsMatchScore [("martin").toList, ("martinez").toList]
        [("martin").toList] = ⟨12597120, 16796160⟩ from by decide,
      show computePartsMatchScore [("martinez").toList, ("martin").toList]
        [("martin").toList] = ⟨21399552, 29859840⟩ from by decide]
    norm_num [Frac.val]

/-- C6 as amended: the greedy parts-match score is not permutation
invariant in general; it is in the exact-match regime: when the input
tokens are pairwise distinct, each occurs verbatim among the subject
tokens, each has self-similarity 1 and no distinct subject token reaches
Jaro-Winkler similarity 1 with it, every permutation of the input scores
exactly 1. -/
theorem c6_exact_tokens_order_insensitive
    (A A' B : List Str) (hperm : A.Perm A') (hnd : A.Nodup) (hne : A ≠ [])
    (hsub : ∀ a ∈ A, a ∈ B)
    (hself : ∀ a ∈ A, (jaroWinklerQ a a).val = 1)
    (huniq : ∀ a ∈ A, ∀ b ∈ B, (jaroWinklerQ a b).val = 1 → b = a) :
    (computePartsMatchScore A' B).val = (computePartsMatchScore A B).val ∧
    (computePartsMatchScore A B).val = 1 := by
  have h1 := partsScore_exact_one A B hnd hne hsub hself huniq
  have h2 := partsScore_exact_one A' B (hperm.nodup hnd)
    (by
      intro hA'
      rw [hA'] at hperm
      rw [List.perm_nil] at hperm
      exact hne hperm)
    (fun a ha => hsub a (hperm.mem_iff.mpr ha))
    (fun a ha => hself a (hperm.mem_iff.mpr ha))
    (fun a ha => huniq a (hperm.mem_iff.mpr ha))
  rw [h1, h2]
  exact ⟨rfl, rfl⟩

theorem c6_exact_tokens_order_insensitive_witness :
    (computePartsMatchScore [("bo").toList, ("ann").toList]
        [("bo").toList, ("ann").toList, ("xx").toList]).val =
      (computePartsMatchScore [("ann").toList, ("bo").toList]
        [("bo").toList, ("ann").toList, ("xx").toList]).val ∧
    (computePartsMatchScore [("ann").toList, ("bo").toList]
        [("bo").toList, ("ann").toList, ("xx").toList]).val = 1 := by
  apply c6_exact_tokens_order_insensitive
  · exact List.Perm.swap _ _ _
  · decide
  · decide
  · decide
  · intro a ha
    rcases List.mem_cons.mp ha with rfl | ha
    · rw [show jaroWinklerQ (("ann").toList) (("ann").toList) = ⟨65610, 65610⟩ from by decide]
      norm_num [Frac.val]
    · rcases List.mem_cons.mp ha with rfl | ha
      · rw [show jaroWinklerQ (("bo").toList) (("bo").toList) = ⟨5760, 5760⟩ from by decide]
        norm_num [Frac.val]
      · simp at ha
  · intro a ha b hb h1
    rcases List.mem_cons.mp ha with rfl | ha
    · rcases List.mem_cons.mp hb with rfl | hb
      · exfalso
        rw [show jaroWinklerQ (("ann").toList) (("bo").toList) = ⟨0, 10⟩ from by decide] at h1
        norm_num [Frac.val] at h1
      · rcases List.mem_cons.mp hb with rfl | hb
        · rfl
        · rcases List.mem_cons.mp hb with rfl | hb
          · exfalso
            rw [show jaroWinklerQ (("ann").toList) (("xx").toList) = ⟨0, 10⟩ from by decide] at h1
            norm_num [Frac.val] at h1
          · simp at hb
    · rcases List.mem_cons.mp ha with rfl | ha
      · rcases List.mem_cons.mp hb with rfl | hb
        · rfl
        · rcases List.mem_cons.mp hb with rfl | hb
          · exfalso
            rw [show jaroWinklerQ (("bo").toList) (("ann").toList) = ⟨0, 10⟩ from by decide] at h1
            norm_num [Frac.val] at h1
          · rcases List.mem_cons.mp hb with rfl | hb
            · exfalso
              rw [show jaroWinklerQ (("bo").toList) (("xx").toList) = ⟨0, 10⟩ from by decide] at h1
              norm_num [Frac.val] at h1
            · simp at hb
      · simp at ha

/-! Claim C8. -/

theorem mem_of_lookup_eq_some {β : Type} {l : List (Char × β)} {c : Char} {b : β}
    (h : l.lookup c = some b) : (c, b) ∈ l := by
  induction l with
  | nil => simp [List.lookup] at h
  | cons p ps ih =>
    rw [List.lookup] at h
    split at h
    · rename_i heq
      injection h with h2
      have hc : c = p.1 := eq_of_beq heq
      have hp : (c, b) = p := by rw [hc, ← h2]
      rw [hp]
      exact List.mem_cons_self p ps
    · exact List.mem_cons_of_mem p (ih h)

theorem flatMap_id {l : List Char} {f : Char → List Char}
    (h : ∀ c ∈ l, f c = [c]) : l.flatMap f = l := by
  induction l with
  | nil => rfl
  | cons c cs ih =>
    rw [List.flatMap_cons, h c (List.mem_cons_self c cs),
      ih (fun d hd => h d (List.mem_cons_of_mem c hd))]
    rfl

/-- Every character produced by the modelled NFD decomposition is itself
NFD-stable (base letters and combining marks do not decompose further). -/
theorem nfdChar_stable (c : Char) : ∀ d ∈ nfdChar c, nfdChar d = [d] := by
  intro d hd
  unfold nfdChar at hd ⊢
  cases h : nfdTable.lookup c with
  | none =>
    rw [h] at hd
    rw [List.mem_singleton] at hd
    subst hd
    rw [h]
  | some ds =>
    rw [h] at hd
    have hmem := mem_of_lookup_eq_some h
    have hcheck : nfdTable.all
        (fun e => e.2.all (fun d => (nfdTable.lookup d).isNone)) = true := by decide
    have h1 := List.all_eq_true.mp hcheck _ hmem
    have h2 := List.all_eq_true.mp h1 d hd
    cases h3 : nfdTable.lookup d with
    | none => rfl
    | some _ =>
      rw [h3] at h2
      simp at h2

/-- The modelled NFD table has no identity entries. -/
theorem nfdTable_no_id : nfdTable.all (fun e => !(e.2 == [e.1])) = true := by decide

/-- Lowercasing an NFD-stable non-mark character yields NFD-stable,
mark-free, lowercase-fixed characters. -/
theorem lowerChar_good (c : Char) (hn : nfdChar c = [c]) (hm : isStripMark c = false) :
    ∀ d ∈ lowerChar c, nfdChar d = [d] ∧ isStripMark d = false ∧ lowerChar d = [d] := by
  intro d hd
  unfold lowerChar at hd
  cases h : lowerTable.lookup c with
  | none =>
    rw [h] at hd
    rw [List.mem_singleton] at hd
    subst hd
    refine ⟨hn, hm, ?_⟩
    unfold lowerChar
    rw [h]
  | some ds =>
    rw [h] at hd
    have hmem := mem_of_lookup_eq_some h
    have hnone : nfdTable.lookup c = none := by
      cases h2 : nfdTable.lookup c with
      | none => rfl
      | some ds2 =>
        exfalso
        unfold nfdChar at hn
        rw [h2] at hn
        have hn2 : ds2 = [c] := hn
        have hmem2 := mem_of_lookup_eq_some h2
        have h3 := List.all_eq_true.mp nfdTable_no_id _ hmem2
        rw [show (c, ds2).2 = ds2 from rfl, show (c, ds2).1 = c from rfl, hn2] at h3
        simp at h3
    have hcheck : lowerTable.all (fun e => !(nfdTable.lookup e.1).isNone ||
        e.2.all (fun d => (nfdTable.lookup d).isNone && !(isStripMark d) &&
          (lowerTable.lookup d).isNone)) = true := by decide
    have h1 := List.all_eq_true.mp hcheck _ hmem
    rw [Bool.or_eq_true] at h1
    rcases h1 with h1 | h1
    · exfalso
      rw [hnone] at h1
      simp at h1
    · have h2 := List.all_eq_true.mp h1 d hd
      rw [Bool.and_eq_true, Bool.and_eq_true] at h2
      obtain ⟨⟨ha, hb⟩, hc2⟩ := h2
      refine ⟨?_, ?_, ?_⟩
      · unfold nfdChar
        rw [Option.isNone_iff_eq_none.mp ha]
      · simpa using hb
      · unfold lowerChar
        rw [Option.isNone_iff_eq_none.mp hc2]

/-- Characters surviving NFD decomposition and mark stripping are
NFD-stable non-marks. -/
theorem stripped_nfd_fixed (s : Str) :
    ∀ e ∈ stripStr (nfdStr s), nfdChar e = [e] ∧ isStripMark e = false := by
  intro e he
  unfold stripStr at he
  rw [List.mem_filter] at he
  obtain ⟨he1, he2⟩ := he
  unfold nfdStr at he1
  rw [List.mem_flatMap] at he1
  obtain ⟨c0, -, hd⟩ := he1
  exact ⟨nfdChar_stable c0 e hd, by simpa using he2⟩

theorem mem_unwords : ∀ (ws : List Str) (c : Char), c ∈ unwords ws →
    (∃ w ∈ ws, c ∈ w) ∨ c = ' ' := by
  intro ws
  induction ws with
  | nil =>
    intro c hc
    simp [unwords] at hc
  | cons w tail ih =>
    intro c hc
    cases tail with
    | nil => exact Or.inl ⟨w, List.mem_cons_self w [], by simpa [unwords] using hc⟩
    | cons w2 tail2 =>
      rw [show unwords (w :: w2 :: tail2) = w ++ ' ' :: unwords (w2 :: tail2) from rfl,
        List.mem_append] at hc
      rcases hc with hc | hc
      · exact Or.inl ⟨w, List.mem_cons_self w _, hc⟩
      · rw [List.mem_cons] at hc
        rcases hc with rfl | hc
        · exact Or.inr rfl
        · rcases ih c hc with ⟨w', hw', hcw⟩ | h
          · exact Or.inl ⟨w', List.mem_cons_of_mem _ hw', hcw⟩
          · exact Or.inr h

theorem mem_wordsAux : ∀ (s acc w : Str), w ∈ wordsAux s acc →
    ∀ c ∈ w, c ∈ s ∨ c ∈ acc := by
  intro s
  induction s with
  | nil =>
    intro acc w hw c hcw
    unfold wordsAux at hw
    split at hw
    · simp at hw
    · rw [List.mem_singleton] at hw
      subst hw
      exact Or.inr (List.mem_reverse.mp hcw)
  | cons d ds ih =>
    intro acc w hw c hcw
    unfold wordsAux at hw
    split at hw
    · split at hw
      · rcases ih [] w hw c hcw with h | h
        · exact Or.inl (List.mem_cons_of_mem d h)
        · simp at h
      · rw [List.mem_cons] at hw
        rcases hw with rfl | hw
        · exact Or.inr (List.mem_reverse.mp hcw)
        · rcases ih [] w hw c hcw with h | h
          · exact Or.inl (List.mem_cons_of_mem d h)
          · simp at h
    · rcases ih (d :: acc) w hw c hcw with h | h
      · exact Or.inl (List.mem_cons_of_mem d h)
      · rw [List.mem_cons] at h
        rcases h with rfl | h
        · exact Or.inl (List.mem_cons_self c ds)
        · exact Or.inr h

theorem mem_collapse (s : Str) (c : Char) (hc : c ∈ collapse s) : c ∈ s ∨ c = ' ' := by
  unfold collapse at hc
  rcases mem_unwords (words s) c hc with ⟨w, hw, hcw⟩ | h
  · rcases mem_wordsAux s [] w hw c hcw with h | h
    · exact Or.inl h
    · simp at h
  · exact Or.inr h

/-- Every character of a normalized name is NFD-stable, mark-free and
lowercase-fixed. -/
theorem normalize_chars_fixed (s : Str) :
    ∀ c ∈ normalizeName s, nfdChar c = [c] ∧ isStripMark c = false ∧ lowerChar c = [c] := by
  intro c hc
  unfold normalizeName at hc
  rcases mem_collapse _ c hc with hc | rfl
  · unfold lowerStr at hc
    rw [List.mem_flatMap] at hc
    obtain ⟨e, he, hd⟩ := hc
    have hf := stripped_nfd_fixed s e he
    exact lowerChar_good e hf.1 hf.2 c hd
  · refine ⟨by decide, by decide, by decide⟩

theorem wordsAux_good : ∀ (s acc : Str), (∀ c ∈ acc, isWs c = false) →
    ∀ w ∈ wordsAux s acc, w ≠ [] ∧ ∀ c ∈ w, isWs c = false := by
  intro s
  induction s with
  | nil =>
    intro acc hacc w hw
    unfold wordsAux at hw
    split at hw
    · simp at hw
    · rename_i hne
      rw [List.mem_singleton] at hw
      subst hw
      refine ⟨?_, fun c hc => hacc c (List.mem_reverse.mp hc)⟩
      intro hrev
      rw [List.reverse_eq_nil_iff] at hrev
      exact hne (List.isEmpty_iff.mpr hrev)
  | cons d ds ih =>
    intro acc hacc w hw
    unfold wordsAux at hw
    split at hw
    · split at hw
      · exact ih [] (by simp) w hw
      · rename_i hne
        rw [List.mem_cons] at hw
        rcases hw with rfl | hw
        · refine ⟨?_, fun c hc => hacc c (List.mem_reverse.mp hc)⟩
          intro hrev
          rw [List.reverse_eq_nil_iff] at hrev
          exact hne (List.isEmpty_iff.mpr hrev)
        · exact ih [] (by simp) w hw
    · rename_i hws
      refine ih (d :: acc) ?_ w hw
      intro c hc
      rw [List.mem_cons] at hc
      rcases hc with rfl | hc
      · simpa using hws
      · exact hacc c hc

theorem wordsAux_no_ws_word : ∀ (w rest acc : Str), (∀ c ∈ w, isWs c = false) →
    wordsAux (w ++ rest) acc = wordsAux rest (w.reverse ++ acc) := by
  intro w
  induction w with
  | nil => intro rest acc _; simp
  | cons c w' ih =>
    intro rest acc hw
    rw [List.cons_append]
    rw [show wordsAux (c :: (w' ++ rest)) acc = wordsAux (w' ++ rest) (c :: acc) from by
      rw [wordsAux]
      rw [if_neg (by
        rw [hw c (List.mem_cons_self c w')]
        simp)]]
    rw [ih rest (c :: acc) (fun d hd => hw d (List.mem_cons_of_mem c hd))]
    rw [List.reverse_cons, List.append_assoc, List.singleton_append]

theorem words_unwords : ∀ (ws : List Str),
    (∀ w ∈ ws, w ≠ [] ∧ ∀ c ∈ w, isWs c = false) → words (unwords ws) = ws := by
  intro ws
  induction ws with
  | nil => intro _; rfl
  | cons w tail ih =>
    intro hgood
    have hw := hgood w (List.mem_cons_self w tail)
    cases tail with
    | nil =>
      show wordsAux (unwords [w]) [] = [w]
      rw [show unwords [w] = w from rfl]
      have h1 := wordsAux_no_ws_word w [] [] hw.2
      rw [List.append_nil] at h1
      rw [h1]
      unfold wordsAux
      rw [if_neg (by
        rw [List.append_nil]
        intro hc
        rw [List.isEmpty_iff, List.reverse_eq_nil_iff] at hc
        exact hw.1 hc)]
      rw [List.append_nil, List.reverse_reverse]
    | cons w2 tail2 =>
      show wordsAux (unwords (w :: w2 :: tail2)) [] = w :: w2 :: tail2
      rw [show unwords (w :: w2 :: tail2) = w ++ ' ' :: unwords (w2 :: tail2) from rfl]
      rw [wordsAux_no_ws_word w (' ' :: unwords (w2 :: tail2)) [] hw.2]
      unfold wordsAux
      rw [if_pos (by decide)]
      rw [if_neg (by
        rw [List.append_nil]
        intro hc
        rw [List.isEmpty_iff, List.reverse_eq_nil_iff] at hc
        exact hw.1 hc)]
      rw [List.append_nil, List.reverse_reverse]
      rw [show wordsAux (unwords (w2 :: tail2)) [] = words (unwords (w2 :: tail2)) from rfl]
      rw [ih (fun v hv => hgood v (List.mem_cons_of_mem w hv))]

theorem collapse_idem (s : Str) : collapse (collapse s) = collapse s := by
  unfold collapse
  rw [words_unwords (words s) (wordsAux_good s [] (by simp))]

/-- C8: name normalization (NFD decomposition, stripping of the combining
marks U+0300..U+036F, lowercasing, whitespace collapsing) is idempotent
over the modelled Unicode fragment: normalizing a normalized string changes
nothing. -/
theorem c8_normalize_idempotent (s : Str) :
    normalizeName (normalizeName s) = normalizeName s := by
  have hfix := normalize_chars_fixed s
  show collapse (lowerStr (stripStr (nfdStr (normalizeName s)))) = normalizeName s
  rw [show nfdStr (normalizeName s) = normalizeName s from
    flatMap_id (fun c hc => (hfix c hc).1)]
  rw [show stripStr (normalizeName s) = normalizeName s from
    List.filter_eq_self.mpr (fun c hc => by rw [(hfix c hc).2.1]; rfl)]
  rw [show lowerStr (normalizeName s) = normalizeName s from
    flatMap_id (fun c hc => (hfix c hc).2.2)]
  unfold normalizeName
  exact collapse_idem _

end Aegistry
